import Mathlib

/-!
Verification development for the quantum amplitude-estimation (QAE) algorithm
family: canonical (phase-estimation based) QAE, maximum-likelihood amplitude
estimation (MLAE) and iterative amplitude estimation (IQAE).

The implementation sources of the estimators are not part of the snapshot
(only their tests are), so the estimator components are modelled from the
design specification, while the concrete state preparations, Grover
operators and expected behaviours are taken from the test suite
(`test/aqua/test_amplitude_estimation.py`).

States of a single qubit are functions `Bool → ℂ`; operators are elements of
the endomorphism monoid, so that composition is multiplication and integer
powers are iterated application.  A register of `m` evaluation qubits plus
one objective qubit is modelled by states `(Fin m → Bool) × Bool → ℂ`.
-/

namespace AmpEst

open Real

/-- State of one qubit: an amplitude for each classical value. -/
abbrev Qubit : Type := Bool → ℂ

/-- Operators on one qubit, with composition as multiplication. -/
abbrev Op1 : Type := Function.End Qubit

/-- The `R_y(θ)` rotation gate, as used by `BernoulliStateIn`/`BernoulliGrover`
in the test suite: it maps `|0⟩` to `cos(θ/2)|0⟩ + sin(θ/2)|1⟩`. -/
noncomputable def ryGate (θ : ℝ) : Op1 := fun ψ b =>
  match b with
  | false => (Real.cos (θ / 2) : ℂ) * ψ false - (Real.sin (θ / 2) : ℂ) * ψ true
  | true => (Real.sin (θ / 2) : ℂ) * ψ false + (Real.cos (θ / 2) : ℂ) * ψ true

theorem ryGate_zero : ryGate 0 = 1 := by
  funext ψ b
  cases b <;> simp [ryGate, Function.End.one_def]

theorem ryGate_mul (θ φ : ℝ) : ryGate θ * ryGate φ = ryGate (θ + φ) := by
  funext ψ b
  have hc : Real.cos ((θ + φ) / 2) = Real.cos (θ / 2) * Real.cos (φ / 2) -
      Real.sin (θ / 2) * Real.sin (φ / 2) := by
    rw [add_div, Real.cos_add]
  have hs : Real.sin ((θ + φ) / 2) = Real.sin (θ / 2) * Real.cos (φ / 2) +
      Real.cos (θ / 2) * Real.sin (φ / 2) := by
    rw [add_div, Real.sin_add]
  cases b <;>
    simp only [ryGate, Function.End.mul_def, Function.comp_apply, hc, hs] <;>
    push_cast <;> ring

theorem ryGate_pow (θ : ℝ) (k : ℕ) : ryGate θ ^ k = ryGate (k * θ) := by
  induction k with
  | zero => simpa using ryGate_zero.symm
  | succ n ih =>
      rw [pow_succ, ih, ryGate_mul]
      push_cast
      ring_nf

/-- An amplification (Grover) operator capability: the operator itself
(`apply`), and an optional operator-declared efficient integer-power rule.
The field `efficient_correct` is the capability contract from the design:
the declared analytic power rule must compute the same unitary as `k`
sequential applications (the Bernoulli operator of the test suite realises
it with `R_y` rotations, see `bernoulliGroverOp`). -/
structure AmplificationOperator (M : Type*) [Monoid M] where
  apply : M
  efficientPow : Option (ℕ → M)
  efficient_correct : ∀ f, efficientPow = some f → ∀ k : ℕ, f k = apply ^ k

/-- Modelled from the spec: `OperatorPower.power(Q, k, use_efficient)`.
The literal path composes `Q` with itself `k` times; the efficient path
invokes the operator-declared analytic power rule when one is declared. -/
def opPower {M : Type*} [Monoid M] (Q : AmplificationOperator M) (k : ℕ)
    (useEfficient : Bool) : M :=
  if useEfficient then
    match Q.efficientPow with
    | some f => f k
    | none => (List.replicate k Q.apply).prod
  else
    (List.replicate k Q.apply).prod

theorem opPower_eq_pow {M : Type*} [Monoid M] (Q : AmplificationOperator M)
    (k : ℕ) (useEfficient : Bool) : opPower Q k useEfficient = Q.apply ^ k := by
  unfold opPower
  cases useEfficient with
  | false => simp [List.prod_replicate]
  | true =>
      cases h : Q.efficientPow with
      | none => simp [h, List.prod_replicate]
      | some f => simpa [h] using Q.efficient_correct f h k

/-- Modelled from the spec: the MLAE power schedule for `k` rounds, always
including power `0` followed by the powers `2^j`, `j = 0 .. k-1`. -/
def mlaeSchedule (k : ℕ) : List ℕ := 0 :: (List.range k).map (2 ^ ·)

/-- Modelled from the spec: the MLAE circuits, one per scheduled power, each
`A` followed by `Q^power`, with no evaluation register. -/
def mlaeCircuits {M : Type*} [Monoid M] (A : M) (Q : AmplificationOperator M)
    (k : ℕ) (useEfficient : Bool) : List M :=
  (mlaeSchedule k).map fun p => opPower Q p useEfficient * A

/-- Modelled from the spec: the single IQAE round circuit at power `k`:
`A` followed by `Q^k`, with no evaluation register. -/
def iqaeCircuit {M : Type*} [Monoid M] (A : M) (Q : AmplificationOperator M)
    (k : ℕ) (useEfficient : Bool) : M :=
  opPower Q k useEfficient * A

/-- The Bernoulli state-preparation operator of the test suite:
`R_y(2 arcsin √p)` encodes amplitude `p`. -/
noncomputable def bernoulliAngle (prob : ℝ) : ℝ := 2 * Real.arcsin (Real.sqrt prob)

noncomputable def bernoulliA (prob : ℝ) : Op1 := ryGate (bernoulliAngle prob)

/-- The Bernoulli Grover operator of the test suite: `R_y(2·angle)`, with the
declared efficient power rule `power k = R_y(k·2·angle)`. -/
noncomputable def bernoulliGroverOp (prob : ℝ) : AmplificationOperator Op1 where
  apply := ryGate (2 * bernoulliAngle prob)
  efficientPow := some fun k => ryGate (k * (2 * bernoulliAngle prob))
  efficient_correct := by
    intro f hf k
    cases hf
    exact (ryGate_pow _ k).symm

/-! Multi-qubit model: `m` evaluation qubits plus one objective qubit. -/

/-- Classical values of the evaluation register. -/
abbrev EvalBits (m : ℕ) : Type := Fin m → Bool

/-- State of the evaluation register together with the objective qubit. -/
abbrev CState (m : ℕ) : Type := EvalBits m × Bool → ℂ

/-- Operators on the full register. -/
abbrev COp (m : ℕ) : Type := Function.End (CState m)

/-- A single-qubit operator applied to the objective qubit. -/
def liftObj {m : ℕ} (u : Op1) : COp m := fun ψ p => u (fun b => ψ (p.1, b)) p.2

/-- A single-qubit operator applied to the objective qubit, controlled on
evaluation qubit `j`. -/
def ctrlObj {m : ℕ} (j : Fin m) (u : Op1) : COp m := fun ψ p =>
  if p.1 j then u (fun b => ψ (p.1, b)) p.2 else ψ p

theorem ctrlObj_one {m : ℕ} (j : Fin m) : ctrlObj (m := m) j 1 = 1 := by
  funext ψ p
  simp [ctrlObj, Function.End.one_def]

theorem ctrlObj_mul {m : ℕ} (j : Fin m) (u v : Op1) :
    ctrlObj (m := m) j (u * v) = ctrlObj j u * ctrlObj j v := by
  funext ψ p
  by_cases h : p.1 j <;>
    simp [ctrlObj, Function.End.mul_def, Function.comp_apply, h]

theorem ctrlObj_pow {m : ℕ} (j : Fin m) (u : Op1) (n : ℕ) :
    ctrlObj (m := m) j (u ^ n) = ctrlObj j u ^ n := by
  induction n with
  | zero => simpa using ctrlObj_one j
  | succ n ih => rw [pow_succ, ctrlObj_mul, ih, pow_succ]

/-- Numeric value of the evaluation register bits (bit `j` has weight `2^j`). -/
def bitsVal {m : ℕ} (x : EvalBits m) : ℕ := ∑ j : Fin m, if x j then 2 ^ (j : ℕ) else 0

/-- Bit reversal of the evaluation register. -/
def bitRev {m : ℕ} (y : EvalBits m) : EvalBits m := fun j => y j.rev

/-- The all-zero value of the evaluation register. -/
def allFalse (m : ℕ) : EvalBits m := fun _ => false

/-- Unit-modulus phase `exp(i t)`. -/
noncomputable def phase (t : ℝ) : ℂ := Complex.exp (t * Complex.I)

/-- Modelled from the spec: the inverse Fourier transform over the
evaluation register in bit-reversed form with no internal swaps (the missing
`CircuitAssembler` appends `QFT(m, do_swaps=False).inverse().reverse_bits()`). -/
noncomputable def iqftRev (m : ℕ) : COp m := fun ψ p =>
  (Real.sqrt (2 ^ m) : ℂ)⁻¹ *
    ∑ x : EvalBits m,
      phase (-(2 * Real.pi * (bitsVal x * bitsVal (bitRev p.1) : ℕ) / (2 ^ m))) * ψ (x, p.2)

/-- Hadamard gate on evaluation qubit `j`. -/
noncomputable def hadAt {m : ℕ} (j : Fin m) : COp m := fun ψ p =>
  (Real.sqrt 2 : ℂ)⁻¹ *
    (ψ (Function.update p.1 j false, p.2) +
      (if p.1 j then -1 else 1) * ψ (Function.update p.1 j true, p.2))

/-- Hadamard gates on every evaluation qubit. -/
noncomputable def hadLayer (m : ℕ) : COp m := (List.ofFn fun j : Fin m => hadAt j).prod

/-- Modelled from the spec: the canonical QAE estimation circuit without
measurement — Hadamards on the evaluation register, `A` on the objective
register, `Q^(2^j)` (realised through `OperatorPower`, honouring the
efficient flag) controlled on evaluation qubit `j`, and the bit-reversed
swapless inverse QFT. -/
noncomputable def qaeConstructCircuit (m : ℕ) (A : Op1) (Q : AmplificationOperator Op1)
    (useEfficient : Bool) : COp m :=
  iqftRev m *
    (List.ofFn fun j : Fin m => ctrlObj j (opPower Q (2 ^ (j : ℕ)) useEfficient)).prod *
    liftObj A * hadLayer m

/-- The canonical QAE circuit exactly as the specification describes it:
controlled mathematical powers `Q^(2^j)`. -/
noncomputable def qaeManualCircuit (m : ℕ) (A : Op1) (Q : AmplificationOperator Op1) : COp m :=
  iqftRev m *
    (List.ofFn fun j : Fin m => ctrlObj j (Q.apply ^ 2 ^ (j : ℕ))).prod *
    liftObj A * hadLayer m

/-- The canonical QAE circuit with each controlled power unrolled into `2^j`
sequential applications of the controlled Grover operator. -/
noncomputable def qaeLiteralCircuit (m : ℕ) (A : Op1) (Q : AmplificationOperator Op1) : COp m :=
  iqftRev m *
    (List.ofFn fun j : Fin m => ctrlObj j Q.apply ^ 2 ^ (j : ℕ)).prod *
    liftObj A * hadLayer m

/-- C3: for every evaluation-register size `m` and every `(A, Q)`, the
canonical QAE circuit built without measurement equals, as an operator, the
circuit applying Hadamards to all `m` evaluation qubits, then `A` on the
objective register, then `Q^(2^j)` controlled on evaluation qubit `j` for
`j = 0 .. m-1`, then the bit-reversed swapless inverse QFT on the
evaluation register. -/
theorem qae_circuit_canonical_form (m : ℕ) (A : Op1) (Q : AmplificationOperator Op1)
    (useEfficient : Bool) :
    qaeConstructCircuit m A Q useEfficient = qaeManualCircuit m A Q := by
  unfold qaeConstructCircuit qaeManualCircuit
  simp only [opPower_eq_pow]

/-- C2: for every amplification operator `Q` (with its declared efficient
power rule), every power and every state preparation `A`, the circuit
assembled through the efficient power rule and the circuit assembled by
literal repeated application of `Q` are equal as operators, for the
canonical-QAE, MLAE and IQAE circuit forms. -/
theorem efficient_vs_literal_assembly (m k : ℕ) (A : Op1) (Q : AmplificationOperator Op1) :
    qaeConstructCircuit m A Q true = qaeLiteralCircuit m A Q ∧
      mlaeCircuits A Q k true = mlaeCircuits A Q k false ∧
      iqaeCircuit A Q k true = iqaeCircuit A Q k false := by
  refine ⟨?_, ?_, ?_⟩
  · unfold qaeConstructCircuit qaeLiteralCircuit
    simp only [opPower_eq_pow, ctrlObj_pow]
  · unfold mlaeCircuits
    simp only [opPower_eq_pow]
  · unfold iqaeCircuit
    simp only [opPower_eq_pow]

/-- C4: an MLAE estimator configured with `k` rounds constructs exactly
`k + 1` circuits: one of power `0` (which is just `A`) and one per power
`2^j` for `j = 0 .. k-1`, each equal as an operator to `A` followed by
`Q^power`, with no evaluation register. -/
theorem mlae_circuit_schedule {M : Type*} [Monoid M] (A : M) (Q : AmplificationOperator M)
    (k : ℕ) (useEfficient : Bool) (j : ℕ) (hj : j < k) :
    (mlaeCircuits A Q k useEfficient).length = k + 1 ∧
      (mlaeCircuits A Q k useEfficient).get? 0 = some A ∧
      (mlaeCircuits A Q k useEfficient).get? (j + 1) = some (Q.apply ^ 2 ^ j * A) := by
  refine ⟨?_, ?_, ?_⟩
  · simp [mlaeCircuits, mlaeSchedule]
  · simp [mlaeCircuits, mlaeSchedule, opPower_eq_pow]
  · simp only [mlaeCircuits, mlaeSchedule, List.map_cons, List.get?_cons_succ, List.map_map,
      opPower_eq_pow]
    simp [List.get?_eq_getElem?, List.getElem?_map, List.getElem?_range hj]

/-- Witness for `mlae_circuit_schedule` at the Bernoulli instance with
`k = 2` rounds and `j = 1`. -/
theorem mlae_circuit_schedule_witness :
    1 < 2 ∧
      ((mlaeCircuits (bernoulliA (1 / 2)) (bernoulliGroverOp (1 / 2)) 2 true).length = 2 + 1 ∧
        (mlaeCircuits (bernoulliA (1 / 2)) (bernoulliGroverOp (1 / 2)) 2 true).get? 0 =
          some (bernoulliA (1 / 2)) ∧
        (mlaeCircuits (bernoulliA (1 / 2)) (bernoulliGroverOp (1 / 2)) 2 true).get? 2 =
          some ((bernoulliGroverOp (1 / 2)).apply ^ 2 ^ 1 * bernoulliA (1 / 2))) :=
  ⟨by norm_num, mlae_circuit_schedule (bernoulliA (1 / 2)) (bernoulliGroverOp (1 / 2)) 2 true 1
    (by norm_num)⟩

/-! Statistical layer: angles, likelihoods and estimators. -/

/-- The angle `θ(a) = arcsin √a` associated with amplitude `a`. -/
noncomputable def thetaOf (a : ℝ) : ℝ := Real.arcsin (Real.sqrt a)

/-- Success probability of the circuit `Q^p A` for amplitude `a`:
`sin²((2p+1)·θ(a))`. -/
noncomputable def groverProb (p : ℕ) (a : ℝ) : ℝ :=
  Real.sin ((2 * p + 1) * thetaOf a) ^ 2

theorem groverProb_nonneg (p : ℕ) (a : ℝ) : 0 ≤ groverProb p a := sq_nonneg _

theorem groverProb_le_one (p : ℕ) (a : ℝ) : groverProb p a ≤ 1 := Real.sin_sq_le_one _

theorem thetaOf_sin_sq (a : ℝ) (ha : a ∈ Set.Icc (0 : ℝ) 1) :
    Real.sin (thetaOf a) ^ 2 = a := by
  rw [thetaOf, Real.sin_arcsin (le_trans (by norm_num) (Real.sqrt_nonneg a))
    (Real.sqrt_le_one.mpr ha.2), Real.sq_sqrt ha.1]

theorem groverProb_zero (a : ℝ) (ha : a ∈ Set.Icc (0 : ℝ) 1) : groverProb 0 a = a := by
  have h : ((2 * (0 : ℕ) + 1 : ℝ)) * thetaOf a = thetaOf a := by norm_num
  rw [groverProb, h, thetaOf_sin_sq a ha]

/-- Per-shot Bernoulli likelihood factor: observing success fraction `f`
under success probability `q`. -/
noncomputable def roundLik (q f : ℝ) : ℝ := q ^ f * (1 - q) ^ (1 - f)

theorem roundLik_nonneg (q f : ℝ) (hq0 : 0 ≤ q) (hq1 : q ≤ 1) : 0 ≤ roundLik q f :=
  mul_nonneg (Real.rpow_nonneg hq0 f) (Real.rpow_nonneg (by linarith) (1 - f))

theorem roundLik_self_pos (p : ℝ) (hp0 : 0 ≤ p) (hp1 : p ≤ 1) : 0 < roundLik p p := by
  rcases hp0.eq_or_lt with hp | hp
  · simp [roundLik, ← hp]
  rcases hp1.lt_or_eq with hp' | hp'
  · have h1 : (0 : ℝ) < 1 - p := by linarith
    exact mul_pos (Real.rpow_pos_of_pos hp p) (Real.rpow_pos_of_pos h1 (1 - p))
  · simp [roundLik, hp']

/-- Strict Gibbs inequality for a Bernoulli observation: the per-shot
likelihood of observing fraction `p` is maximised, strictly, at success
probability `p` itself. -/
theorem roundLik_lt (p q : ℝ) (hp0 : 0 ≤ p) (hp1 : p ≤ 1) (hq0 : 0 ≤ q) (hq1 : q ≤ 1)
    (hne : q ≠ p) : roundLik q p < roundLik p p := by
  rcases hp0.eq_or_lt with hp | hp
  · -- p = 0 : the likelihood is 1 - q < 1
    subst hp
    have hq : 0 < q := hq0.lt_of_ne (Ne.symm hne)
    have e1 : roundLik q 0 = 1 - q := by
      simp [roundLik, Real.rpow_zero, Real.rpow_one]
    have e2 : roundLik 0 0 = 1 := by
      simp [roundLik, Real.rpow_zero, Real.one_rpow]
    rw [e1, e2]
    linarith
  rcases hp1.lt_or_eq with hp' | hp'
  · -- 0 < p < 1
    rcases hq0.eq_or_lt with hq | hq
    · -- q = 0 : the likelihood vanishes
      have : roundLik q p = 0 := by
        simp [roundLik, ← hq, Real.zero_rpow (ne_of_gt hp)]
      rw [this]
      exact roundLik_self_pos p hp0 hp1
    rcases hq1.lt_or_eq with hq' | hq'
    · -- interior case : compare logarithms
      have h1p : (0 : ℝ) < 1 - p := by linarith
      have h1q : (0 : ℝ) < 1 - q := by linarith
      have hLq : roundLik q p =
          Real.exp (Real.log q * p + Real.log (1 - q) * (1 - p)) := by
        rw [roundLik, Real.rpow_def_of_pos hq, Real.rpow_def_of_pos h1q, ← Real.exp_add]
      have hLp : roundLik p p =
          Real.exp (Real.log p * p + Real.log (1 - p) * (1 - p)) := by
        rw [roundLik, Real.rpow_def_of_pos hp, Real.rpow_def_of_pos h1p, ← Real.exp_add]
      rw [hLq, hLp, Real.exp_lt_exp]
      have hne' : q / p ≠ 1 := by
        intro h
        rw [div_eq_iff (ne_of_gt hp), one_mul] at h
        exact hne h
      have h1 : Real.log (q / p) < q / p - 1 :=
        Real.log_lt_sub_one_of_pos (div_pos hq hp) hne'
      have h2 : Real.log ((1 - q) / (1 - p)) ≤ (1 - q) / (1 - p) - 1 :=
        Real.log_le_sub_one_of_pos (div_pos h1q h1p)
      rw [Real.log_div (ne_of_gt hq) (ne_of_gt hp)] at h1
      rw [Real.log_div (ne_of_gt h1q) (ne_of_gt h1p)] at h2
      have e1 : p * (q / p) = q := by field_simp
      have e2 : (1 - p) * ((1 - q) / (1 - p)) = 1 - q := by field_simp
      have h1' : p * (Real.log q - Real.log p) < q - p := by
        have := mul_lt_mul_of_pos_left h1 hp
        rw [mul_sub p (q / p) 1, e1, mul_one] at this
        exact this
      have h2' : (1 - p) * (Real.log (1 - q) - Real.log (1 - p)) ≤ p - q := by
        have := mul_le_mul_of_nonneg_left h2 (le_of_lt h1p)
        rw [mul_sub (1 - p) ((1 - q) / (1 - p)) 1, e2, mul_one] at this
        linarith
      nlinarith [h1', h2']
    · -- q = 1 : the likelihood vanishes
      have : roundLik q p = 0 := by
        simp [roundLik, hq', Real.zero_rpow (by linarith : 1 - p ≠ 0)]
      rw [this]
      exact roundLik_self_pos p hp0 hp1
  · -- p = 1 : the likelihood is q < 1
    subst hp'
    have hqlt : q < 1 := hq1.lt_of_ne hne
    have e1 : roundLik q 1 = q := by
      simp [roundLik, Real.rpow_one, Real.rpow_zero]
    have e2 : roundLik 1 1 = 1 := by
      simp [roundLik, Real.rpow_one, Real.rpow_zero]
    rw [e1, e2]
    exact hqlt

theorem roundLik_le (p q : ℝ) (hp0 : 0 ≤ p) (hp1 : p ≤ 1) (hq0 : 0 ≤ q) (hq1 : q ≤ 1) :
    roundLik q p ≤ roundLik p p := by
  rcases eq_or_ne q p with rfl | h
  · exact le_refl _
  · exact (roundLik_lt p q hp0 hp1 hq0 hq1 h).le

/-- One MLAE observation round: a Grover power together with the observed
per-shot success fraction. -/
structure MLAERound where
  power : ℕ
  fraction : ℝ

/-- Modelled from the spec: the MLAE joint likelihood (per shot) of
amplitude `a` given the observed rounds,
`Π_k sin²((2·power_k+1)θ)^{f_k} · cos²((2·power_k+1)θ)^{1-f_k}`. -/
noncomputable def mlaeLikelihood (rounds : List MLAERound) (a : ℝ) : ℝ :=
  (rounds.map fun r => roundLik (groverProb r.power a) r.fraction).prod

/-- A value `a` is an MLAE estimate for the given data if it globally
maximises the likelihood over `[0,1]` (the spec requires "estimation" to be
the global maximizer of the bounded one-dimensional search). -/
def IsMLAEEstimate (rounds : List MLAERound) (a : ℝ) : Prop :=
  a ∈ Set.Icc (0 : ℝ) 1 ∧
    ∀ b ∈ Set.Icc (0 : ℝ) 1, mlaeLikelihood rounds b ≤ mlaeLikelihood rounds a

/-- The exact-path (statevector) data for a power schedule: each round
observes exactly its model success probability. -/
noncomputable def exactRounds (powers : List ℕ) (a : ℝ) : List MLAERound :=
  powers.map fun p => ⟨p, groverProb p a⟩

theorem mlaeLikelihood_exact_cons (p : ℕ) (t : List ℕ) (a b : ℝ) :
    mlaeLikelihood (exactRounds (p :: t) a) b =
      roundLik (groverProb p b) (groverProb p a) * mlaeLikelihood (exactRounds t a) b := by
  simp [mlaeLikelihood, exactRounds]

theorem mlaeLikelihood_exact_nonneg (powers : List ℕ) (a b : ℝ) :
    0 ≤ mlaeLikelihood (exactRounds powers a) b := by
  induction powers with
  | nil => simp [mlaeLikelihood, exactRounds]
  | cons p t ih =>
      rw [mlaeLikelihood_exact_cons]
      exact mul_nonneg (roundLik_nonneg _ _ (groverProb_nonneg p b) (groverProb_le_one p b)) ih

theorem mlaeLikelihood_exact_le (powers : List ℕ) (a b : ℝ) :
    mlaeLikelihood (exactRounds powers a) b ≤ mlaeLikelihood (exactRounds powers a) a := by
  induction powers with
  | nil => simp [mlaeLikelihood, exactRounds]
  | cons p t ih =>
      rw [mlaeLikelihood_exact_cons, mlaeLikelihood_exact_cons]
      exact mul_le_mul
        (roundLik_le _ _ (groverProb_nonneg p a) (groverProb_le_one p a)
          (groverProb_nonneg p b) (groverProb_le_one p b))
        ih (mlaeLikelihood_exact_nonneg t a b)
        (roundLik_self_pos _ (groverProb_nonneg p a) (groverProb_le_one p a)).le

theorem mlaeLikelihood_exact_pos (powers : List ℕ) (a : ℝ) :
    0 < mlaeLikelihood (exactRounds powers a) a := by
  induction powers with
  | nil => simp [mlaeLikelihood, exactRounds]
  | cons p t ih =>
      rw [mlaeLikelihood_exact_cons]
      exact mul_pos (roundLik_self_pos _ (groverProb_nonneg p a) (groverProb_le_one p a)) ih

theorem mlaeLikelihood_exact_lt (powers : List ℕ) (hp : 0 ∈ powers) (a b : ℝ)
    (ha : a ∈ Set.Icc (0 : ℝ) 1) (hb : b ∈ Set.Icc (0 : ℝ) 1) (hne : b ≠ a) :
    mlaeLikelihood (exactRounds powers a) b < mlaeLikelihood (exactRounds powers a) a := by
  induction powers with
  | nil => exact absurd hp (List.not_mem_nil 0)
  | cons p t ih =>
      rw [mlaeLikelihood_exact_cons, mlaeLikelihood_exact_cons]
      rcases List.mem_cons.1 hp with hp0 | hpt
      · -- the head round has power 0, where the likelihoods separate strictly
        subst hp0
        have hqs : groverProb 0 b ≠ groverProb 0 a := by
          rw [groverProb_zero a ha, groverProb_zero b hb]
          exact hne
        calc roundLik (groverProb 0 b) (groverProb 0 a) * mlaeLikelihood (exactRounds t a) b
            ≤ roundLik (groverProb 0 b) (groverProb 0 a) *
              mlaeLikelihood (exactRounds t a) a :=
              mul_le_mul_of_nonneg_left (mlaeLikelihood_exact_le t a b)
                (roundLik_nonneg _ _ (groverProb_nonneg 0 b) (groverProb_le_one 0 b))
        _ < _ := mul_lt_mul_of_pos_right
              (roundLik_lt _ _ (groverProb_nonneg 0 a) (groverProb_le_one 0 a)
                (groverProb_nonneg 0 b) (groverProb_le_one 0 b) hqs)
              (mlaeLikelihood_exact_pos t a)
      · -- strictness comes from deeper in the list
        calc roundLik (groverProb p b) (groverProb p a) * mlaeLikelihood (exactRounds t a) b
            ≤ roundLik (groverProb p a) (groverProb p a) *
              mlaeLikelihood (exactRounds t a) b :=
              mul_le_mul_of_nonneg_right
                (roundLik_le _ _ (groverProb_nonneg p a) (groverProb_le_one p a)
                  (groverProb_nonneg p b) (groverProb_le_one p b))
                (mlaeLikelihood_exact_nonneg t a b)
        _ < _ := mul_lt_mul_of_pos_left (ih hpt)
              (roundLik_self_pos _ (groverProb_nonneg p a) (groverProb_le_one p a))

/-- IQAE run result: point estimate with its precomputed confidence
interval. -/
structure IQAEResult where
  estimation : ℝ
  ciLo : ℝ
  ciHi : ℝ

/-- The single-qubit `|0⟩` state. -/
def ketZero : Qubit := fun b => if b then 0 else 1

/-- Probability that measuring the objective qubit of `A|0⟩` yields 1. -/
noncomputable def exactGoodProb (A : Op1) : ℝ := Complex.normSq (A ketZero true)

/-- Modelled from the spec: on the exact (statevector) path every IQAE
round measures its success probability exactly, so the running confidence
interval collapses to a point, which the scheduler returns as both the
estimate and the (precomputed) confidence interval. -/
noncomputable def iqaeExactRun (A : Op1) : IQAEResult :=
  ⟨exactGoodProb A, exactGoodProb A, exactGoodProb A⟩

/-- Modelled from the spec: on the sampled path the final interval
`[lo, hi]` is returned as-is and the estimate is its midpoint. -/
noncomputable def iqaeSampledResult (lo hi : ℝ) : IQAEResult :=
  ⟨(lo + hi) / 2, lo, hi⟩

theorem exactGoodProb_bernoulli (a : ℝ) (ha : a ∈ Set.Icc (0 : ℝ) 1) :
    exactGoodProb (bernoulliA a) = a := by
  have h2 : bernoulliAngle a / 2 = thetaOf a := by
    rw [bernoulliAngle, thetaOf]
    ring
  have hval : bernoulliA a ketZero true = (Real.sin (thetaOf a) : ℂ) := by
    simp [bernoulliA, ryGate, ketZero, h2]
  rw [exactGoodProb, hval, Complex.normSq_ofReal, ← sq, thetaOf_sin_sq a ha]

/-- The canonical QAE measurement grid: bin `y` decodes to amplitude
`sin²(π·y / 2^m)`. -/
noncomputable def gridPoint (m y : ℕ) : ℝ := Real.sin (Real.pi * y / 2 ^ m) ^ 2

/-- First (least-index) maximiser of a function on `Fin n`, mirroring the
first-maximum tie-breaking used when decoding the dominant measurement
bin. -/
noncomputable def argmaxFin {n : ℕ} (hn : 0 < n) (f : Fin n → ℝ) : Fin n :=
  (Finset.univ.filter fun i => ∀ j, f j ≤ f i).min' (by
    obtain ⟨i, -, hi⟩ := Finset.exists_max_image Finset.univ f ⟨⟨0, hn⟩, Finset.mem_univ _⟩
    exact ⟨i, Finset.mem_filter.2 ⟨Finset.mem_univ _, fun j => hi j (Finset.mem_univ _)⟩⟩)

/-- Evaluation-register basis value of a measured integer. -/
def natToBits (m : ℕ) (y : Fin (2 ^ m)) : EvalBits m := fun j => Nat.testBit y (j : ℕ)

/-- Product states: independent evaluation-qubit amplitudes times an
objective-qubit state. -/
noncomputable def productState {m : ℕ} (g : Fin m → Qubit) (v : Qubit) : CState m :=
  fun p => (∏ j, g j (p.1 j)) * v p.2

/-- The initial all-zero register state. -/
noncomputable def initState (m : ℕ) : CState m := productState (fun _ => ketZero) ketZero

/-- Probability of measuring evaluation value `y` (marginal over the
objective qubit) in the exact final state of the canonical QAE circuit. -/
noncomputable def canonMeasureProb (m : ℕ) (A : Op1) (Q : AmplificationOperator Op1)
    (y : Fin (2 ^ m)) : ℝ :=
  ∑ b : Bool,
    Complex.normSq (qaeConstructCircuit m A Q true (initState m) (natToBits m y, b))

/-- Modelled from the spec: the canonical estimator reports the grid value
of the dominant bin of the exact measurement distribution. -/
noncomputable def canonExactEstimation (m : ℕ) (A : Op1)
    (Q : AmplificationOperator Op1) : ℝ :=
  gridPoint m (argmaxFin (Nat.two_pow_pos m) fun y => canonMeasureProb m A Q y)

/-- Modelled from the spec: on the sampled path the dominant bin of the
measured counts is decoded to its grid value. -/
noncomputable def canonCountsEstimation (m : ℕ) (counts : Fin (2 ^ m) → ℕ) : ℝ :=
  gridPoint m (argmaxFin (Nat.two_pow_pos m) fun y => (counts y : ℝ))

theorem canonExactEstimation_mem_grid (m : ℕ) (A : Op1) (Q : AmplificationOperator Op1) :
    ∃ y : Fin (2 ^ m), canonExactEstimation m A Q = gridPoint m y :=
  ⟨_, rfl⟩

/-- C1 counterexample: with the Bernoulli state preparation encoding
`a = 1/5` and a 2-qubit evaluation register on the exact path, the
canonical estimator's `estimation` is a grid value `sin²(π·y/4)`
(one of 0, 1/2, 1), hence more than `1e-3` away from `a`; the claim that
`estimation` equals `a` within `1e-3` for all three variants fails. -/
theorem canonical_estimation_off_grid_cex :
    1 / 1000 <
      |canonExactEstimation 2 (bernoulliA (1 / 5)) (bernoulliGroverOp (1 / 5)) - 1 / 5| := by
  obtain ⟨y, hy⟩ :=
    canonExactEstimation_mem_grid 2 (bernoulliA (1 / 5)) (bernoulliGroverOp (1 / 5))
  rw [hy]
  have hhalf : Real.sin (Real.pi / 4) ^ 2 = 1 / 2 := by
    rw [Real.sin_pi_div_four]
    rw [div_pow, sq_sqrt (by norm_num : (0 : ℝ) ≤ 2)]
    norm_num
  have h4 : (y : ℕ) < 4 := y.isLt
  have hval : (y : ℕ) = 0 ∨ (y : ℕ) = 1 ∨ (y : ℕ) = 2 ∨ (y : ℕ) = 3 := by omega
  rcases hval with h | h | h | h <;> rw [h]
  · have h0 : gridPoint 2 0 = 0 := by
      simp [gridPoint]
    rw [h0, lt_abs]
    right
    norm_num
  · have h1 : gridPoint 2 1 = 1 / 2 := by
      have e : Real.pi * ((1 : ℕ) : ℝ) / 2 ^ 2 = Real.pi / 4 := by push_cast; ring
      rw [gridPoint, e, hhalf]
    rw [h1, lt_abs]
    left
    norm_num
  · have h2 : gridPoint 2 2 = 1 := by
      have e : Real.pi * ((2 : ℕ) : ℝ) / 2 ^ 2 = Real.pi / 2 := by push_cast; ring
      rw [gridPoint, e, Real.sin_pi_div_two]
      norm_num
    rw [h2, lt_abs]
    left
    norm_num
  · have h3 : gridPoint 2 3 = 1 / 2 := by
      have e : Real.pi * ((3 : ℕ) : ℝ) / 2 ^ 2 = Real.pi - Real.pi / 4 := by push_cast; ring
      rw [gridPoint, e, Real.sin_pi_sub, hhalf]
    rw [h3, lt_abs]
    left
    norm_num

/-! Confidence-interval engine. -/

/-- Confidence-interval method selector: likelihood-ratio inversion,
expected Fisher information, observed Fisher information. -/
inductive CIMethod
  | lr
  | fisher
  | observedFisher

/-- Statistical tables used by the interval engine: the standard normal
quantile and the χ² (1 d.o.f.) quantile, supplied by the numerical
environment. -/
structure StatTables where
  normQuantile : ℝ → ℝ
  chi2Quantile : ℝ → ℝ

/-- Result of a canonical-QAE or MLAE run, as consumed by the confidence
interval engine: the point estimate, whether the run used the exact
(statevector) path, the shot count, the Fisher informations at the
estimate, and the log-likelihood surface of the data. -/
structure EstResult where
  estimate : ℝ
  exactPath : Bool
  shots : ℕ
  fisherInfo : ℝ
  observedInfo : ℝ
  loglik : ℝ → ℝ

/-- Modelled from the spec: the likelihood-ratio confidence set
`{a ∈ [0,1] : -2(ℓ(a) - ℓ(â)) ≤ χ²_{1,1-α}}`. -/
def lrSet (t : StatTables) (r : EstResult) (α : ℝ) : Set ℝ :=
  {a ∈ Set.Icc (0 : ℝ) 1 |
    -2 * (r.loglik a - r.loglik r.estimate) ≤ t.chi2Quantile (1 - α)}

/-- Modelled from the spec: the `ConfidenceIntervalEngine`.  The confidence
level is validated to lie in `(0,1)`; on the exact path (the `shots = ∞`
sentinel) all three methods degenerate to the zero-width interval at the
point estimate; otherwise the method-specific interval is produced
(likelihood-ratio inversion, or `â ± z_{1-α/2}/√I`). -/
noncomputable def confidenceInterval (t : StatTables) (r : EstResult) (α : ℝ)
    (method : CIMethod) : Except String (ℝ × ℝ) :=
  if 0 < α ∧ α < 1 then
    .ok <|
      if r.exactPath then (r.estimate, r.estimate)
      else
        match method with
        | .lr => (sInf (lrSet t r α), sSup (lrSet t r α))
        | .fisher =>
            (r.estimate - t.normQuantile (1 - α / 2) / Real.sqrt (r.shots * r.fisherInfo),
              r.estimate + t.normQuantile (1 - α / 2) / Real.sqrt (r.shots * r.fisherInfo))
        | .observedFisher =>
            (r.estimate - t.normQuantile (1 - α / 2) / Real.sqrt r.observedInfo,
              r.estimate + t.normQuantile (1 - α / 2) / Real.sqrt r.observedInfo)
  else .error "confidence level must be in (0,1)"

theorem confidenceInterval_exact (t : StatTables) (r : EstResult) (α : ℝ)
    (method : CIMethod) (hα0 : 0 < α) (hα1 : α < 1) (hex : r.exactPath = true) :
    confidenceInterval t r α method = .ok (r.estimate, r.estimate) := by
  simp [confidenceInterval, hα0, hα1, hex]

/-- C5: for every confidence level `α ∈ (0,1)` and each of the three
methods, a confidence-interval query on an exact-path (statevector) result
returns the zero-width interval collapsed onto the point estimate, and the
IQAE exact-path precomputed interval likewise collapses onto its
estimation. -/
theorem exact_ci_collapses (t : StatTables) (r : EstResult) (α : ℝ) (method : CIMethod)
    (A : Op1) (hα0 : 0 < α) (hα1 : α < 1) (hex : r.exactPath = true) :
    confidenceInterval t r α method = .ok (r.estimate, r.estimate) ∧
      (iqaeExactRun A).ciLo = (iqaeExactRun A).estimation ∧
      (iqaeExactRun A).ciHi = (iqaeExactRun A).estimation :=
  ⟨confidenceInterval_exact t r α method hα0 hα1 hex, rfl, rfl⟩

/-- Witness for `exact_ci_collapses` at a concrete exact-path result. -/
theorem exact_ci_collapses_witness :
    confidenceInterval ⟨fun _ => 1, fun _ => 1⟩
        ⟨1 / 2, true, 100, 1, 1, fun _ => 0⟩ (1 / 2) CIMethod.fisher =
        .ok (1 / 2, 1 / 2) ∧
      (iqaeExactRun 1).ciLo = (iqaeExactRun 1).estimation ∧
      (iqaeExactRun 1).ciHi = (iqaeExactRun 1).estimation :=
  exact_ci_collapses ⟨fun _ => 1, fun _ => 1⟩ ⟨1 / 2, true, 100, 1, 1, fun _ => 0⟩
    (1 / 2) CIMethod.fisher 1 (by norm_num) (by norm_num) rfl

/-- C6: on the sampled path, each of the three interval methods produces an
interval that brackets the point estimate (given that the statistical
quantiles are nonnegative, as the normal and χ² quantiles are at these
levels), and the IQAE precomputed interval contains its estimation (the
midpoint of the final interval). -/
theorem sampled_ci_brackets_estimate (t : StatTables) (r : EstResult) (α : ℝ)
    (method : CIMethod) (lo hi : ℝ)
    (hα0 : 0 < α) (hα1 : α < 1) (hex : r.exactPath = false)
    (hest : r.estimate ∈ Set.Icc (0 : ℝ) 1)
    (hz : 0 ≤ t.normQuantile (1 - α / 2)) (hchi : 0 ≤ t.chi2Quantile (1 - α))
    (hlohi : lo ≤ hi) :
    (∃ l h, confidenceInterval t r α method = .ok (l, h) ∧
      l ≤ r.estimate ∧ r.estimate ≤ h) ∧
      (iqaeSampledResult lo hi).ciLo ≤ (iqaeSampledResult lo hi).estimation ∧
      (iqaeSampledResult lo hi).estimation ≤ (iqaeSampledResult lo hi).ciHi := by
  refine ⟨?_, ?_, ?_⟩
  · have hif : (0 < α ∧ α < 1) := ⟨hα0, hα1⟩
    cases method with
    | lr =>
        refine ⟨sInf (lrSet t r α), sSup (lrSet t r α), ?_, ?_, ?_⟩
        · simp [confidenceInterval, hif, hex]
        · exact csInf_le (BddBelow.mono (fun a ha => ha.1) bddBelow_Icc)
            ⟨hest, by simp [hchi]⟩
        · exact le_csSup (BddAbove.mono (fun a ha => ha.1) bddAbove_Icc)
            ⟨hest, by simp [hchi]⟩
    | fisher =>
        have hq : 0 ≤ t.normQuantile (1 - α / 2) /
            Real.sqrt (r.shots * r.fisherInfo) :=
          div_nonneg hz (Real.sqrt_nonneg _)
        exact ⟨r.estimate - t.normQuantile (1 - α / 2) / Real.sqrt (r.shots * r.fisherInfo),
          r.estimate + t.normQuantile (1 - α / 2) / Real.sqrt (r.shots * r.fisherInfo),
          by simp [confidenceInterval, hif, hex], by linarith, by linarith⟩
    | observedFisher =>
        have hq : 0 ≤ t.normQuantile (1 - α / 2) / Real.sqrt r.observedInfo :=
          div_nonneg hz (Real.sqrt_nonneg _)
        exact ⟨r.estimate - t.normQuantile (1 - α / 2) / Real.sqrt r.observedInfo,
          r.estimate + t.normQuantile (1 - α / 2) / Real.sqrt r.observedInfo,
          by simp [confidenceInterval, hif, hex], by linarith, by linarith⟩
  · show lo ≤ (lo + hi) / 2
    linarith
  · show (lo + hi) / 2 ≤ hi
    linarith

/-- Witness for `sampled_ci_brackets_estimate` at a concrete sampled-path
result with the likelihood-ratio method. -/
theorem sampled_ci_brackets_estimate_witness :
    (∃ l h, confidenceInterval ⟨fun _ => 1, fun _ => 1⟩
        ⟨1 / 2, false, 100, 1, 1, fun _ => 0⟩ (1 / 2) CIMethod.lr = .ok (l, h) ∧
      l ≤ (1 : ℝ) / 2 ∧ (1 : ℝ) / 2 ≤ h) ∧
      (iqaeSampledResult 0 1).ciLo ≤ (iqaeSampledResult 0 1).estimation ∧
      (iqaeSampledResult 0 1).estimation ≤ (iqaeSampledResult 0 1).ciHi :=
  sampled_ci_brackets_estimate ⟨fun _ => 1, fun _ => 1⟩
    ⟨1 / 2, false, 100, 1, 1, fun _ => 0⟩ (1 / 2) CIMethod.lr 0 1
    (by norm_num) (by norm_num) rfl (by norm_num) (by norm_num) (by norm_num)
    (by norm_num)

/-! Estimator problem setting: A, Q and the objective qubits. -/

/-- Settable problem state of an estimator instance, mirroring the
`_state_preparation`, `_grover_operator` and `_objective_qubits`
attributes of the estimators. -/
structure EstimatorConfig (A G : Type*) where
  statePreparation : Option A
  groverOperator : Option G
  objectiveQubits : Option (List ℕ)

/-- A freshly constructed estimator: nothing assigned. -/
def emptyConfig (A G : Type*) : EstimatorConfig A G := ⟨none, none, none⟩

/-- Modelled from the spec and the test suite's observable behaviour: the
`grover_operator` property.  An explicitly assigned operator is returned;
otherwise, if a state preparation is available, the canonical Grover
operator is derived from it (`derive` stands for the external
`GroverOperator(oracle, A)` constructor against the "mark objective
qubits = 1" oracle); otherwise the query completes with `none`. -/
def groverOperatorQuery {A G : Type*} (derive : A → G) (c : EstimatorConfig A G) :
    Except String (Option G) :=
  match c.groverOperator with
  | some q => .ok (some q)
  | none =>
      match c.statePreparation with
      | some a => .ok (some (derive a))
      | none => .ok none

/-- Modelled from the spec and the test suite's observable behaviour: the
`objective_qubits` property; the default is the index of the topmost
qubit of the `width`-qubit state preparation. -/
def objectiveQubitsQuery {A G : Type*} (width : A → ℕ) (c : EstimatorConfig A G) :
    Except String (Option (List ℕ)) :=
  match c.objectiveQubits with
  | some i => .ok (some i)
  | none =>
      match c.statePreparation with
      | some a => .ok (some [width a - 1])
      | none => .ok none

/-- C7 counterexample: on a freshly constructed estimator, both queries
return successfully with the value `none`; no "not configured" error is
raised (`test_operators` asserts `assertIsNone` on the properties of the
unconfigured estimators). -/
theorem unconfigured_query_none_cex :
    groverOperatorQuery (fun a : Op1 => a) (emptyConfig Op1 Op1) = .ok none ∧
      objectiveQubitsQuery (fun _ : Op1 => 1) (emptyConfig Op1 Op1) = .ok none :=
  ⟨rfl, rfl⟩

/-- C7 amended: for every estimator instance on which no state preparation
has been set, querying the derived Grover operator or the objective qubits
completes without an error and returns no value (`None`); it neither
raises a "not configured" error nor fabricates a non-`None` default. -/
theorem unconfigured_queries_return_none {A G : Type*} (derive : A → G) (width : A → ℕ)
    (c : EstimatorConfig A G) (hs : c.statePreparation = none)
    (hg : c.groverOperator = none) (ho : c.objectiveQubits = none) :
    groverOperatorQuery derive c = .ok none ∧
      objectiveQubitsQuery width c = .ok none := by
  constructor
  · rw [groverOperatorQuery, hg, hs]
  · rw [objectiveQubitsQuery, ho, hs]

/-- Witness for `unconfigured_queries_return_none` at a freshly constructed
estimator over single-qubit operators. -/
theorem unconfigured_queries_return_none_witness :
    groverOperatorQuery (fun a : Op1 => a * a) (emptyConfig Op1 Op1) = .ok none ∧
      objectiveQubitsQuery (fun _ : Op1 => 1) (emptyConfig Op1 Op1) = .ok none :=
  unconfigured_queries_return_none (fun a : Op1 => a * a) (fun _ : Op1 => 1)
    (emptyConfig Op1 Op1) rfl rfl rfl

/-- C8: on an estimator with only the state preparation `A` assigned,
querying the Grover operator returns (non-`None`) the canonical derivation
from `A` against the "mark objective qubits = 1" oracle, and querying the
objective qubits returns the derived default index (topmost register
qubit), even though neither was explicitly set. -/
theorem derived_grover_and_default_objective {A G : Type*} (derive : A → G)
    (width : A → ℕ) (a : A) (c : EstimatorConfig A G)
    (hs : c.statePreparation = some a) (hg : c.groverOperator = none)
    (ho : c.objectiveQubits = none) :
    groverOperatorQuery derive c = .ok (some (derive a)) ∧
      objectiveQubitsQuery width c = .ok (some [width a - 1]) := by
  constructor
  · rw [groverOperatorQuery, hg, hs]
  · rw [objectiveQubitsQuery, ho, hs]

/-- Witness for `derived_grover_and_default_objective` at the Bernoulli
state preparation. -/
theorem derived_grover_and_default_objective_witness :
    groverOperatorQuery (fun x : Op1 => x * x)
        (⟨some (bernoulliA (1 / 2)), none, none⟩ : EstimatorConfig Op1 Op1) =
        .ok (some (bernoulliA (1 / 2) * bernoulliA (1 / 2))) ∧
      objectiveQubitsQuery (fun _ : Op1 => 1)
        (⟨some (bernoulliA (1 / 2)), none, none⟩ : EstimatorConfig Op1 Op1) =
        .ok (some [0]) :=
  derived_grover_and_default_objective (fun x : Op1 => x * x) (fun _ : Op1 => 1)
    (bernoulliA (1 / 2)) ⟨some (bernoulliA (1 / 2)), none, none⟩ rfl rfl rfl

/-! Exact semantics of the Bernoulli canonical QAE circuit. -/

/-- Action of a Hadamard gate on one qubit amplitude pair. -/
noncomputable def hTrans (c : Qubit) : Qubit := fun b =>
  (Real.sqrt 2 : ℂ)⁻¹ * (c false + (if b then -1 else 1) * c true)

theorem hadAt_productState {m : ℕ} (j : Fin m) (g : Fin m → Qubit) (v : Qubit) :
    hadAt j (productState g v) = productState (Function.update g j (hTrans (g j))) v := by
  funext p
  obtain ⟨x, b⟩ := p
  have hprod : ∀ c : Bool, (∏ i, g i (Function.update x j c i)) =
      g j c * ∏ i ∈ Finset.univ \ {j}, g i (x i) := by
    intro c
    have hfun : (fun i => g i (Function.update x j c i)) =
        Function.update (fun i => g i (x i)) j (g j c) := by
      funext i
      rcases eq_or_ne i j with rfl | hij
      · simp [Function.update_same]
      · simp [Function.update_noteq hij]
    rw [hfun, Finset.prod_update_of_mem (Finset.mem_univ j)]
  have hrhs : (∏ i, Function.update g j (hTrans (g j)) i (x i)) =
      hTrans (g j) (x j) * ∏ i ∈ Finset.univ \ {j}, g i (x i) := by
    have hfun : (fun i => Function.update g j (hTrans (g j)) i (x i)) =
        Function.update (fun i => g i (x i)) j (hTrans (g j) (x j)) := by
      funext i
      rcases eq_or_ne i j with rfl | hij
      · simp [Function.update_same]
      · simp [Function.update_noteq hij]
    rw [hfun, Finset.prod_update_of_mem (Finset.mem_univ j)]
  show (Real.sqrt 2 : ℂ)⁻¹ *
      (productState g v (Function.update x j false, b) +
        (if x j then -1 else 1) * productState g v (Function.update x j true, b)) = _
  rw [productState, productState]
  show (Real.sqrt 2 : ℂ)⁻¹ *
      ((∏ i, g i (Function.update x j false i)) * v b +
        (if x j then -1 else 1) * ((∏ i, g i (Function.update x j true i)) * v b)) = _
  rw [hprod false, hprod true]
  show _ = (∏ i, Function.update g j (hTrans (g j)) i (x i)) * v b
  rw [hrhs]
  simp only [hTrans]
  ring

/-- Fold of Hadamard-gate updates over a list of qubit indices. -/
noncomputable def updAll {m : ℕ} (l : List (Fin m)) (g : Fin m → Qubit) : Fin m → Qubit :=
  l.foldr (fun j gg => Function.update gg j (hTrans (gg j))) g

theorem hadList_productState {m : ℕ} (l : List (Fin m)) (g : Fin m → Qubit) (v : Qubit) :
    ((l.map hadAt).prod) (productState g v) = productState (updAll l g) v := by
  induction l with
  | nil => rfl
  | cons j t ih =>
      rw [List.map_cons, List.prod_cons]
      have happ : (hadAt j * (t.map hadAt).prod) (productState g v) =
          hadAt j (((t.map hadAt).prod) (productState g v)) := rfl
      rw [happ, ih, hadAt_productState]
      rfl

theorem updAll_apply_of_not_mem {m : ℕ} (l : List (Fin m)) (g : Fin m → Qubit)
    (j : Fin m) (hj : j ∉ l) : updAll l g j = g j := by
  induction l with
  | nil => rfl
  | cons a t ih =>
      have hja : j ≠ a := fun h => hj (h ▸ List.mem_cons_self a t)
      have hjt : j ∉ t := fun h => hj (List.mem_cons_of_mem a h)
      show Function.update (updAll t g) a _ j = g j
      rw [Function.update_noteq hja, ih hjt]

theorem updAll_apply_of_mem {m : ℕ} (l : List (Fin m)) (g : Fin m → Qubit)
    (j : Fin m) (hnd : l.Nodup) (hj : j ∈ l) : updAll l g j = hTrans (g j) := by
  induction l with
  | nil => exact absurd hj (List.not_mem_nil j)
  | cons a t ih =>
      rcases List.mem_cons.1 hj with rfl | hjt
      · show Function.update (updAll t g) j (hTrans (updAll t g j)) j = _
        rw [Function.update_same, updAll_apply_of_not_mem t g j (List.nodup_cons.1 hnd).1]
      · have hja : j ≠ a := fun h => (List.nodup_cons.1 hnd).1 (h ▸ hjt)
        show Function.update (updAll t g) a _ j = _
        rw [Function.update_noteq hja, ih (List.nodup_cons.1 hnd).2 hjt]

theorem hadLayer_productState {m : ℕ} (g : Fin m → Qubit) (v : Qubit) :
    hadLayer m (productState g v) = productState (fun j => hTrans (g j)) v := by
  have h : hadLayer m = ((List.ofFn (fun j : Fin m => j)).map hadAt).prod := by
    rw [hadLayer, List.map_ofFn]
    rfl
  have harg : updAll (List.ofFn fun j : Fin m => j) g = fun j => hTrans (g j) := by
    funext j
    exact updAll_apply_of_mem _ g j (List.nodup_ofFn.mpr fun i i' hi => hi)
      ((List.mem_ofFn _ j).2 ⟨j, rfl⟩)
  rw [h, hadList_productState, harg]

theorem ryGate_zero_apply (v : Qubit) : ryGate 0 v = v := by
  rw [ryGate_zero]
  rfl

theorem ryGate_smul (ω : ℝ) (c : ℂ) (w : Qubit) (b : Bool) :
    ryGate ω (fun b' => c * w b') b = c * ryGate ω w b := by
  cases b <;> simp [ryGate] <;> ring

theorem liftObj_ryGate_productState {m : ℕ} (ω : ℝ) (g : Fin m → Qubit) (v : Qubit) :
    liftObj (ryGate ω) (productState g v) = productState g (ryGate ω v) := by
  funext p
  obtain ⟨x, b⟩ := p
  show ryGate ω (fun b' => productState g v (x, b')) b = (∏ i, g i (x i)) * ryGate ω v b
  have : (fun b' => productState g v (x, b')) = fun b' => (∏ i, g i (x i)) * v b' := rfl
  rw [this, ryGate_smul]

/-- Evaluation-controlled rotation states: a product over the evaluation
register times an objective qubit rotated by an angle depending on the set
evaluation bits. -/
noncomputable def rotState {m : ℕ} (g : Fin m → Qubit) (v : Qubit) (φ : Fin m → ℝ) :
    CState m :=
  fun p => (∏ j, g j (p.1 j)) * ryGate (∑ j, if p.1 j then φ j else 0) v p.2

theorem productState_eq_rotState {m : ℕ} (g : Fin m → Qubit) (v : Qubit) :
    productState g v = rotState g v fun _ => 0 := by
  funext p
  have hs : (∑ j, if p.1 j then (0 : ℝ) else 0) = 0 := by simp
  rw [rotState, hs, ryGate_zero_apply]
  rfl

theorem ctrlObj_ryGate_rotState {m : ℕ} (j : Fin m) (α : ℝ) (g : Fin m → Qubit)
    (v : Qubit) (φ : Fin m → ℝ) :
    ctrlObj j (ryGate α) (rotState g v φ) =
      rotState g v (Function.update φ j (α + φ j)) := by
  funext p
  obtain ⟨x, b⟩ := p
  cases hxj : x j with
  | true =>
      have hlhs : ctrlObj j (ryGate α) (rotState g v φ) (x, b) =
          ryGate α (fun b' => rotState g v φ (x, b')) b := by
        simp [ctrlObj, hxj]
      have hslice : (fun b' => rotState g v φ (x, b')) =
          fun b' => (∏ i, g i (x i)) *
            ryGate (∑ i, if x i then φ i else 0) v b' := rfl
      have hS : (∑ i, if x i then Function.update φ j (α + φ j) i else 0) =
          α + ∑ i, if x i then φ i else 0 := by
        have hfun : (fun i => if x i then Function.update φ j (α + φ j) i else 0) =
            Function.update (fun i => if x i then φ i else 0) j (α + φ j) := by
          funext i
          rcases eq_or_ne i j with rfl | hij
          · simp [Function.update_same, hxj]
          · simp [Function.update_noteq hij]
        rw [hfun, Finset.sum_update_of_mem (Finset.mem_univ j),
          ← Finset.sum_erase_add Finset.univ _ (Finset.mem_univ j), hxj]
        simp only [if_true, Finset.sdiff_singleton_eq_erase]
        ring
      have hcomp : ryGate α (ryGate (∑ i, if x i then φ i else 0) v) b =
          ryGate (α + ∑ i, if x i then φ i else 0) v b :=
        congrFun (congrFun (ryGate_mul α _) v) b
      rw [hlhs, hslice, ryGate_smul, hcomp, rotState, hS]
  | false =>
      have hlhs : ctrlObj j (ryGate α) (rotState g v φ) (x, b) =
          rotState g v φ (x, b) := by
        simp [ctrlObj, hxj]
      have hS : (∑ i, if x i then Function.update φ j (α + φ j) i else 0) =
          ∑ i, if x i then φ i else 0 := by
        refine Finset.sum_congr rfl fun i _ => ?_
        rcases eq_or_ne i j with rfl | hij
        · simp [hxj]
        · simp [Function.update_noteq hij]
      rw [hlhs, rotState, rotState, hS]

/-- Accumulated controlled-rotation angles. -/
def ctrlAngles {m : ℕ} (l : List (Fin m × ℝ)) (φ : Fin m → ℝ) : Fin m → ℝ :=
  l.foldr (fun q φ' => Function.update φ' q.1 (q.2 + φ' q.1)) φ

theorem ctrlList_rotState {m : ℕ} (l : List (Fin m × ℝ)) (g : Fin m → Qubit)
    (v : Qubit) (φ : Fin m → ℝ) :
    ((l.map fun q => ctrlObj q.1 (ryGate q.2)).prod) (rotState g v φ) =
      rotState g v (ctrlAngles l φ) := by
  induction l with
  | nil => rfl
  | cons q t ih =>
      rw [List.map_cons, List.prod_cons]
      have happ : (ctrlObj q.1 (ryGate q.2) *
          (t.map fun q => ctrlObj q.1 (ryGate q.2)).prod) (rotState g v φ) =
          ctrlObj q.1 (ryGate q.2)
            (((t.map fun q => ctrlObj q.1 (ryGate q.2)).prod) (rotState g v φ)) := rfl
      rw [happ, ih, ctrlObj_ryGate_rotState]
      rfl

theorem ctrlAngles_apply_of_not_mem {m : ℕ} (l : List (Fin m × ℝ)) (φ : Fin m → ℝ)
    (j : Fin m) (hj : j ∉ l.map Prod.fst) : ctrlAngles l φ j = φ j := by
  induction l with
  | nil => rfl
  | cons q t ih =>
      rw [List.map_cons] at hj
      have hja : j ≠ q.1 := fun h => hj (List.mem_cons.2 (Or.inl h))
      have hjt : j ∉ t.map Prod.fst := fun h => hj (List.mem_cons.2 (Or.inr h))
      show Function.update (ctrlAngles t φ) q.1 _ j = φ j
      rw [Function.update_noteq hja, ih hjt]

theorem ctrlAngles_apply_of_mem {m : ℕ} (l : List (Fin m × ℝ)) (φ : Fin m → ℝ)
    (j : Fin m) (α : ℝ) (hnd : (l.map Prod.fst).Nodup) (hj : (j, α) ∈ l) :
    ctrlAngles l φ j = α + φ j := by
  induction l with
  | nil => exact absurd hj (List.not_mem_nil _)
  | cons q t ih =>
      have hnd1 : q.1 ∉ t.map Prod.fst := (List.nodup_cons.1 (by simpa using hnd)).1
      have hnd2 : (t.map Prod.fst).Nodup := (List.nodup_cons.1 (by simpa using hnd)).2
      rcases List.mem_cons.1 hj with rfl | hjt
      · show Function.update (ctrlAngles t φ) j (α + ctrlAngles t φ j) j = _
        rw [Function.update_same, ctrlAngles_apply_of_not_mem t φ j hnd1]
      · have hjmem : j ∈ t.map Prod.fst := List.mem_map.2 ⟨(j, α), hjt, rfl⟩
        have hja : j ≠ q.1 := fun h => hnd1 (h ▸ hjmem)
        show Function.update (ctrlAngles t φ) q.1 _ j = _
        rw [Function.update_noteq hja, ih hnd2 hjt]

theorem hTrans_ketZero : hTrans ketZero = fun _ => (Real.sqrt 2 : ℂ)⁻¹ := by
  funext b
  cases b <;> simp [hTrans, ketZero]

theorem ryGate_ketZero (t : ℝ) (b : Bool) :
    ryGate t ketZero b =
      if b then (Real.sin (t / 2) : ℂ) else (Real.cos (t / 2) : ℂ) := by
  cases b <;> simp [ryGate, ketZero]

theorem bernoulliAngle_eq (a : ℝ) : bernoulliAngle a = 2 * thetaOf a := rfl

theorem opPower_bernoulli (a : ℝ) (k : ℕ) :
    opPower (bernoulliGroverOp a) k true = ryGate (k * (2 * bernoulliAngle a)) := rfl

/-- Closed form of the canonical QAE state just before the inverse QFT, for
the Bernoulli instance: amplitude `(√2)^{-m}` on each evaluation value `x`,
with the objective qubit rotated to the angle `(2·x+1)·θ`. -/
noncomputable def bernoulliPreState (m : ℕ) (a : ℝ) : CState m := fun p =>
  (Real.sqrt 2 : ℂ)⁻¹ ^ m *
    (if p.2 then (Real.sin ((2 * bitsVal p.1 + 1) * thetaOf a) : ℂ)
      else (Real.cos ((2 * bitsVal p.1 + 1) * thetaOf a) : ℂ))

theorem bernoulli_preState (m : ℕ) (a : ℝ) :
    ((List.ofFn fun j : Fin m =>
        ctrlObj j (opPower (bernoulliGroverOp a) (2 ^ (j : ℕ)) true)).prod)
      (liftObj (bernoulliA a) (hadLayer m (initState m))) = bernoulliPreState m a := by
  have h1 : hadLayer m (initState m) =
      productState (fun _ => fun _ => (Real.sqrt 2 : ℂ)⁻¹) ketZero := by
    rw [initState, hadLayer_productState]
    simp only [hTrans_ketZero]
  have h2 : liftObj (bernoulliA a) (hadLayer m (initState m)) =
      rotState (fun _ => fun _ => (Real.sqrt 2 : ℂ)⁻¹)
        (ryGate (bernoulliAngle a) ketZero) fun _ => 0 := by
    rw [h1, bernoulliA, liftObj_ryGate_productState, productState_eq_rotState]
  have h3 : (List.ofFn fun j : Fin m =>
      ctrlObj j (opPower (bernoulliGroverOp a) (2 ^ (j : ℕ)) true)) =
      ((List.ofFn fun j : Fin m =>
        (j, ((2 ^ (j : ℕ) : ℕ) : ℝ) * (2 * bernoulliAngle a))).map
          fun q => ctrlObj q.1 (ryGate q.2)) := by
    rw [List.map_ofFn]
    refine congrArg List.ofFn (funext fun j => ?_)
    rw [opPower_bernoulli]
    rfl
  rw [h2, h3, ctrlList_rotState]
  have h4 : ctrlAngles (List.ofFn fun j : Fin m =>
      (j, ((2 ^ (j : ℕ) : ℕ) : ℝ) * (2 * bernoulliAngle a))) (fun _ => 0) =
      fun j : Fin m => ((2 ^ (j : ℕ) : ℕ) : ℝ) * (2 * bernoulliAngle a) := by
    funext j
    have hnd : ((List.ofFn fun j : Fin m =>
        (j, ((2 ^ (j : ℕ) : ℕ) : ℝ) * (2 * bernoulliAngle a))).map Prod.fst).Nodup := by
      rw [List.map_ofFn]
      exact List.nodup_ofFn.mpr fun i i' h => h
    have hmem : (j, ((2 ^ (j : ℕ) : ℕ) : ℝ) * (2 * bernoulliAngle a)) ∈
        List.ofFn fun j : Fin m =>
          (j, ((2 ^ (j : ℕ) : ℕ) : ℝ) * (2 * bernoulliAngle a)) :=
      (List.mem_ofFn _ _).2 ⟨j, rfl⟩
    rw [ctrlAngles_apply_of_mem _ _ j _ hnd hmem, add_zero]
  rw [h4]
  funext p
  obtain ⟨x, b⟩ := p
  show (∏ _j : Fin m, (Real.sqrt 2 : ℂ)⁻¹) *
      ryGate (∑ j, if x j then ((2 ^ (j : ℕ) : ℕ) : ℝ) * (2 * bernoulliAngle a) else 0)
        (ryGate (bernoulliAngle a) ketZero) b = bernoulliPreState m a (x, b)
  have hprod : (∏ _j : Fin m, (Real.sqrt 2 : ℂ)⁻¹) = (Real.sqrt 2 : ℂ)⁻¹ ^ m := by
    rw [Finset.prod_const, Finset.card_univ, Fintype.card_fin]
  have hsum : (∑ j, if x j then ((2 ^ (j : ℕ) : ℕ) : ℝ) * (2 * bernoulliAngle a) else 0) =
      2 * bernoulliAngle a * ((bitsVal x : ℕ) : ℝ) := by
    rw [bitsVal]
    push_cast
    rw [Finset.mul_sum]
    refine Finset.sum_congr rfl fun j _ => ?_
    cases hxj : x j
    · simp
    · simp
      ring
  have hcomp : ryGate (2 * bernoulliAngle a * ((bitsVal x : ℕ) : ℝ))
      (ryGate (bernoulliAngle a) ketZero) b =
      ryGate (2 * bernoulliAngle a * ((bitsVal x : ℕ) : ℝ) + bernoulliAngle a) ketZero b :=
    congrFun (congrFun (ryGate_mul _ _) ketZero) b
  have hang : (2 * bernoulliAngle a * ((bitsVal x : ℕ) : ℝ) + bernoulliAngle a) / 2 =
      (2 * ((bitsVal x : ℕ) : ℝ) + 1) * thetaOf a := by
    rw [bernoulliAngle_eq]
    ring
  rw [hprod, hsum, hcomp, ryGate_ketZero, bernoulliPreState, hang]

/-! Discrete Fourier sums over the evaluation register. -/

theorem phase_zero : phase 0 = 1 := by simp [phase]

theorem phase_add (s t : ℝ) : phase (s + t) = phase s * phase t := by
  rw [phase, phase, phase, ← Complex.exp_add]
  congr 1
  push_cast
  ring

theorem phase_conj (t : ℝ) : (starRingEnd ℂ) (phase t) = phase (-t) := by
  rw [phase, phase, ← Complex.exp_conj]
  congr 1
  simp [Complex.conj_I]

theorem phase_sum {ι : Type*} (s : Finset ι) (f : ι → ℝ) :
    phase (∑ j ∈ s, f j) = ∏ j ∈ s, phase (f j) := by
  simp only [phase]
  rw [← Complex.exp_sum]
  congr 1
  push_cast
  rw [Finset.sum_mul]

theorem sum_two_pow_range (m : ℕ) : ∑ i ∈ Finset.range m, 2 ^ i = 2 ^ m - 1 := by
  induction m with
  | zero => rfl
  | succ n ih =>
      rw [Finset.sum_range_succ, ih]
      have h1 : 1 ≤ 2 ^ n := Nat.one_le_two_pow
      omega

theorem bitsVal_lt {m : ℕ} (x : EvalBits m) : bitsVal x < 2 ^ m := by
  have h : bitsVal x ≤ ∑ j : Fin m, 2 ^ (j : ℕ) := by
    refine Finset.sum_le_sum fun j _ => ?_
    cases x j <;> simp
  have h2 : ∑ j : Fin m, 2 ^ (j : ℕ) = 2 ^ m - 1 := by
    rw [Fin.sum_univ_eq_sum_range, sum_two_pow_range]
  have h3 : 1 ≤ 2 ^ m := Nat.one_le_two_pow
  omega

theorem bitsVal_succ {m : ℕ} (x : EvalBits (m + 1)) :
    bitsVal x = (if x 0 then 1 else 0) + 2 * bitsVal fun j : Fin m => x j.succ := by
  rw [bitsVal, Fin.sum_univ_succ]
  congr 1
  rw [bitsVal, Finset.mul_sum]
  refine Finset.sum_congr rfl fun j _ => ?_
  cases x j.succ
  · simp
  · simp only [if_true]
    rw [Fin.val_succ, pow_succ]
    ring

theorem bitsVal_injective {m : ℕ} : Function.Injective (bitsVal (m := m)) := by
  induction m with
  | zero =>
      intro x y _
      funext j
      exact j.elim0
  | succ n ih =>
      intro x y h
      rw [bitsVal_succ x, bitsVal_succ y] at h
      have h0 : x 0 = y 0 := by
        cases hx : x 0 <;> cases hy : y 0 <;> rw [hx, hy] at h <;> simp at h
        · exfalso; omega
        · exfalso; omega
      have htail : bitsVal (fun j : Fin n => x j.succ) =
          bitsVal fun j : Fin n => y j.succ := by
        rw [h0] at h
        cases hy : y 0 <;> rw [hy] at h <;> simp at h <;> omega
      have ht := ih htail
      funext j
      refine Fin.cases ?_ (fun i => ?_) j
      · exact h0
      · exact congrFun ht i

theorem sum_prod_ite {m : ℕ} (w : Fin m → ℂ) :
    ∑ x : EvalBits m, ∏ j, (if x j then w j else 1) = ∏ j, (1 + w j) := by
  rw [← Fintype.prod_sum fun (j : Fin m) (b : Bool) => if b then w j else 1]
  refine Finset.prod_congr rfl fun j _ => ?_
  rw [Fintype.sum_bool]
  simp [add_comm]

theorem phase_mul_bitsVal {m : ℕ} (c : ℝ) (x : EvalBits m) :
    phase (c * bitsVal x) = ∏ j, (if x j then phase (c * 2 ^ (j : ℕ)) else 1) := by
  have h : c * (bitsVal x : ℝ) = ∑ j, if x j then c * 2 ^ (j : ℕ) else 0 := by
    rw [bitsVal]
    push_cast
    rw [Finset.mul_sum]
    refine Finset.sum_congr rfl fun j _ => ?_
    cases x j <;> simp
  rw [h, phase_sum]
  refine Finset.prod_congr rfl fun j _ => ?_
  cases x j <;> simp [phase_zero]

theorem phaseSum_nat {m k : ℕ} (hk0 : k ≠ 0) (hklt : k < 2 ^ m) :
    ∑ x : EvalBits m, phase (2 * Real.pi * k / 2 ^ m * bitsVal x) = 0 := by
  have hrw : ∀ x : EvalBits m, phase (2 * Real.pi * k / 2 ^ m * bitsVal x) =
      ∏ j, (if x j then phase (2 * Real.pi * k / 2 ^ m * 2 ^ (j : ℕ)) else 1) :=
    fun x => phase_mul_bitsVal _ x
  rw [Finset.sum_congr rfl fun x _ => hrw x, sum_prod_ite]
  -- the factor at bit `m - 1 - s` vanishes, where `2^s` is the 2-adic part of `k`
  set s : ℕ := k.factorization 2 with hs
  set u : ℕ := k / 2 ^ s with hu
  have hku : 2 ^ s * u = k := Nat.ordProj_mul_ordCompl_eq_self k 2
  have hupos : 0 < u := Nat.ordCompl_pos 2 hk0
  have hodd : ¬2 ∣ u := Nat.not_dvd_ordCompl Nat.prime_two hk0
  have hsm : s < m := by
    have hdvd : 2 ^ s ∣ k := Nat.ordProj_dvd k 2
    have hle : 2 ^ s ≤ k := Nat.le_of_dvd (Nat.pos_of_ne_zero hk0) hdvd
    have : (2 : ℕ) ^ s < 2 ^ m := lt_of_le_of_lt hle hklt
    exact (Nat.pow_lt_pow_iff_right (by norm_num)).1 this
  have hm1 : m - 1 - s + s = m - 1 := by omega
  have hm2 : m - 1 + 1 = m := by omega
  set j0 : Fin m := ⟨m - 1 - s, by omega⟩ with hj0
  refine Finset.prod_eq_zero (Finset.mem_univ j0) ?_
  have hexp : 2 * Real.pi * k / 2 ^ m * 2 ^ ((j0 : ℕ)) = Real.pi * u := by
    have h1 : ((k : ℝ)) = 2 ^ s * u := by exact_mod_cast hku.symm
    have h3 : (2 : ℝ) ^ s * 2 ^ (m - 1 - s) = 2 ^ (m - 1) := by
      rw [← pow_add]
      congr 1
      omega
    have h4 : (2 : ℝ) * 2 ^ (m - 1) = 2 ^ m := by
      rw [mul_comm, ← pow_succ]
      congr 1
    rw [div_mul_eq_mul_div, div_eq_iff (by positivity : ((2 : ℝ) ^ m) ≠ 0), h1]
    have hj0v : ((j0 : ℕ)) = m - 1 - s := rfl
    rw [hj0v]
    calc 2 * Real.pi * ((2 : ℝ) ^ s * u) * 2 ^ (m - 1 - s)
        = Real.pi * u * (2 * ((2 : ℝ) ^ s * 2 ^ (m - 1 - s))) := by ring
    _ = Real.pi * u * 2 ^ m := by rw [h3, h4]
  rw [hexp]
  have hodd' : Odd u := by
    rcases Nat.even_or_odd u with he | ho
    · exact absurd he.two_dvd hodd
    · exact ho
  have hval : phase (Real.pi * u) = -1 := by
    rw [phase]
    have harg : ((Real.pi * u : ℝ) : ℂ) * Complex.I = (u : ℂ) * (Real.pi * Complex.I) := by
      push_cast
      ring
    rw [harg, Complex.exp_nat_mul, Complex.exp_pi_mul_I, hodd'.neg_one_pow]
  rw [hval]
  ring

theorem phaseSum_int {m : ℕ} (d : ℤ) (hd : ¬(2 : ℤ) ^ m ∣ d) :
    ∑ x : EvalBits m, phase (2 * Real.pi * d / 2 ^ m * bitsVal x) = 0 := by
  have hpos : (0 : ℤ) < 2 ^ m := by positivity
  set k : ℕ := (d % (2 : ℤ) ^ m).toNat with hk
  have hmod_nonneg : 0 ≤ d % (2 : ℤ) ^ m := Int.emod_nonneg d (ne_of_gt hpos)
  have hkz : (k : ℤ) = d % (2 : ℤ) ^ m := Int.toNat_of_nonneg hmod_nonneg
  have hmod_lt : d % (2 : ℤ) ^ m < (2 : ℤ) ^ m := Int.emod_lt_of_pos d hpos
  have hk0 : k ≠ 0 := by
    intro h
    apply hd
    apply Int.dvd_of_emod_eq_zero
    omega
  have hklt : k < 2 ^ m := by
    have h2 : ((2 ^ m : ℕ) : ℤ) = (2 : ℤ) ^ m := by push_cast; rfl
    omega
  have hq : d = (2 : ℤ) ^ m * (d / (2 : ℤ) ^ m) + k := by
    rw [hkz]
    exact (Int.ediv_add_emod d ((2 : ℤ) ^ m)).symm
  have hcongr : ∀ x : EvalBits m, phase (2 * Real.pi * d / 2 ^ m * bitsVal x) =
      phase (2 * Real.pi * k / 2 ^ m * bitsVal x) := by
    intro x
    set q : ℤ := d / (2 : ℤ) ^ m with hqdef
    have hd' : (d : ℝ) = 2 ^ m * (q : ℝ) + k := by exact_mod_cast hq
    have harg : 2 * Real.pi * (d : ℝ) / 2 ^ m * bitsVal x =
        2 * Real.pi * (k : ℝ) / 2 ^ m * bitsVal x +
          ((q * bitsVal x : ℤ) : ℝ) * (2 * Real.pi) := by
      rw [hd']
      push_cast
      field_simp
      ring
    rw [harg, phase_add]
    have hone : phase (((q * bitsVal x : ℤ) : ℝ) * (2 * Real.pi)) = 1 := by
      rw [phase]
      have h5 : ((((q * bitsVal x : ℤ) : ℝ) * (2 * Real.pi) : ℝ) : ℂ) * Complex.I =
          ((q * bitsVal x : ℤ) : ℂ) * (2 * Real.pi * Complex.I) := by
        push_cast
        ring
      rw [h5, Complex.exp_int_mul_two_pi_mul_I]
    rw [hone, mul_one]
  rw [Finset.sum_congr rfl fun x _ => hcongr x]
  exact phaseSum_nat hk0 hklt

theorem phaseSum_pair {m : ℕ} (k l : ℕ) (hk : k < 2 ^ m) (hl : l < 2 ^ m) :
    ∑ x : EvalBits m, phase (2 * Real.pi * ((k : ℝ) - l) / 2 ^ m * bitsVal x) =
      if k = l then ((2 : ℂ) ^ m) else 0 := by
  rcases eq_or_ne k l with rfl | hne
  · rw [if_pos rfl]
    have hone : ∀ x : EvalBits m,
        phase (2 * Real.pi * ((k : ℝ) - k) / 2 ^ m * bitsVal x) = 1 := by
      intro x
      have : 2 * Real.pi * ((k : ℝ) - k) / 2 ^ m * bitsVal x = 0 := by ring
      rw [this, phase_zero]
    rw [Finset.sum_congr rfl fun x _ => hone x, Finset.sum_const, Finset.card_univ]
    simp [Fintype.card_fun]
  · rw [if_neg hne]
    have hd : ¬(2 : ℤ) ^ m ∣ ((k : ℤ) - l) := by
      intro hdvd
      have hne' : (k : ℤ) - l ≠ 0 := sub_ne_zero.2 (by exact_mod_cast hne)
      have habs : |(k : ℤ) - l| < (2 : ℤ) ^ m := by
        have h2 : ((2 ^ m : ℕ) : ℤ) = (2 : ℤ) ^ m := by push_cast; rfl
        rw [abs_sub_lt_iff]
        omega
      have hle : (2 : ℤ) ^ m ≤ |(k : ℤ) - l| :=
        Int.le_of_dvd (abs_pos.2 hne') ((dvd_abs _ _).2 hdvd)
      exact absurd hle (not_le.2 habs)
    have h := phaseSum_int (m := m) ((k : ℤ) - l) hd
    rw [← h]
    refine Finset.sum_congr rfl fun x _ => ?_
    congr 1
    push_cast
    ring

/-- The kernel of the bit-reversed inverse QFT. -/
noncomputable def dftKernel (m : ℕ) (x y : EvalBits m) : ℂ :=
  phase (-(2 * Real.pi * (bitsVal x * bitsVal (bitRev y) : ℕ) / 2 ^ m))

theorem iqftRev_apply {m : ℕ} (ψ : CState m) (y : EvalBits m) (b : Bool) :
    iqftRev m ψ (y, b) =
      (Real.sqrt (2 ^ m) : ℂ)⁻¹ * ∑ x : EvalBits m, dftKernel m x y * ψ (x, b) := rfl

theorem bitRev_involutive {m : ℕ} : Function.Involutive (bitRev (m := m)) := by
  intro y
  funext j
  simp [bitRev, Fin.rev_rev]

theorem dftKernel_mul_conj {m : ℕ} (x x' y : EvalBits m) :
    dftKernel m x y * (starRingEnd ℂ) (dftKernel m x' y) =
      phase (2 * Real.pi * ((bitsVal x' : ℝ) - bitsVal x) / 2 ^ m *
        bitsVal (bitRev y)) := by
  rw [dftKernel, dftKernel, phase_conj, ← phase_add]
  congr 1
  push_cast
  ring

theorem dftKernel_ortho {m : ℕ} (x x' : EvalBits m) :
    ∑ y : EvalBits m, dftKernel m x y * (starRingEnd ℂ) (dftKernel m x' y) =
      if x = x' then ((2 : ℂ) ^ m) else 0 := by
  rw [Finset.sum_congr rfl fun y _ => dftKernel_mul_conj x x' y]
  have hre := Fintype.sum_bijective (bitRev (m := m)) bitRev_involutive.bijective
    (fun y => phase (2 * Real.pi * ((bitsVal x' : ℝ) - bitsVal x) / 2 ^ m *
      bitsVal (bitRev y)))
    (fun z => phase (2 * Real.pi * ((bitsVal x' : ℝ) - bitsVal x) / 2 ^ m * bitsVal z))
    fun y => rfl
  rw [hre, phaseSum_pair _ _ (bitsVal_lt _) (bitsVal_lt _)]
  by_cases hxx : x = x'
  · subst hxx
    simp
  · rw [if_neg fun h => hxx (bitsVal_injective h).symm, if_neg hxx]

theorem iqftRev_parseval {m : ℕ} (ψ : CState m) (b : Bool) :
    ∑ y : EvalBits m, Complex.normSq (iqftRev m ψ (y, b)) =
      ∑ x : EvalBits m, Complex.normSq (ψ (x, b)) := by
  set c : ℂ := (Real.sqrt (2 ^ m) : ℂ)⁻¹ with hc
  have hcconj : (starRingEnd ℂ) c = c := by
    rw [hc, map_inv₀, Complex.conj_ofReal]
  have hcc : c * c * (2 : ℂ) ^ m = 1 := by
    rw [hc, ← mul_inv]
    have h7 : ((Real.sqrt (2 ^ m) : ℝ) : ℂ) * ((Real.sqrt (2 ^ m) : ℝ) : ℂ) =
        ((2 : ℂ) ^ m) := by
      rw [← Complex.ofReal_mul, Real.mul_self_sqrt (by positivity)]
      push_cast
      rfl
    rw [h7]
    exact inv_mul_cancel₀ (pow_ne_zero m two_ne_zero)
  have key : ∑ y : EvalBits m,
      iqftRev m ψ (y, b) * (starRingEnd ℂ) (iqftRev m ψ (y, b)) =
      ∑ x : EvalBits m, ψ (x, b) * (starRingEnd ℂ) (ψ (x, b)) := by
    have hexpand : ∀ y : EvalBits m,
        iqftRev m ψ (y, b) * (starRingEnd ℂ) (iqftRev m ψ (y, b)) =
        (c * c) * ∑ x : EvalBits m, ∑ x' : EvalBits m,
          (dftKernel m x y * (starRingEnd ℂ) (dftKernel m x' y)) *
            (ψ (x, b) * (starRingEnd ℂ) (ψ (x', b))) := by
      intro y
      rw [iqftRev_apply, map_mul, map_sum, hcconj]
      have h2 : ∀ x' : EvalBits m, (starRingEnd ℂ) (dftKernel m x' y * ψ (x', b)) =
          (starRingEnd ℂ) (dftKernel m x' y) * (starRingEnd ℂ) (ψ (x', b)) :=
        fun x' => map_mul _ _ _
      rw [Finset.sum_congr rfl fun x' _ => h2 x', mul_mul_mul_comm,
        Finset.sum_mul_sum]
      congr 1
      refine Finset.sum_congr rfl fun x _ => Finset.sum_congr rfl fun x' _ => ?_
      ring
    rw [Finset.sum_congr rfl fun y _ => hexpand y, ← Finset.mul_sum]
    have h3 : ∑ y : EvalBits m, ∑ x : EvalBits m, ∑ x' : EvalBits m,
        (dftKernel m x y * (starRingEnd ℂ) (dftKernel m x' y)) *
          (ψ (x, b) * (starRingEnd ℂ) (ψ (x', b))) =
        ∑ x : EvalBits m, ∑ y : EvalBits m, ∑ x' : EvalBits m,
          (dftKernel m x y * (starRingEnd ℂ) (dftKernel m x' y)) *
            (ψ (x, b) * (starRingEnd ℂ) (ψ (x', b))) := Finset.sum_comm
    rw [h3]
    have hswap2 : ∀ x : EvalBits m, ∑ y : EvalBits m, ∑ x' : EvalBits m,
        (dftKernel m x y * (starRingEnd ℂ) (dftKernel m x' y)) *
          (ψ (x, b) * (starRingEnd ℂ) (ψ (x', b))) =
        ∑ x' : EvalBits m, (if x = x' then ((2 : ℂ) ^ m) else 0) *
          (ψ (x, b) * (starRingEnd ℂ) (ψ (x', b))) := by
      intro x
      rw [Finset.sum_comm]
      refine Finset.sum_congr rfl fun x' _ => ?_
      rw [← Finset.sum_mul, dftKernel_ortho]
    rw [Finset.sum_congr rfl fun x _ => hswap2 x]
    have hcollapse : ∀ x : EvalBits m, ∑ x' : EvalBits m,
        (if x = x' then ((2 : ℂ) ^ m) else 0) *
          (ψ (x, b) * (starRingEnd ℂ) (ψ (x', b))) =
        (2 : ℂ) ^ m * (ψ (x, b) * (starRingEnd ℂ) (ψ (x, b))) := by
      intro x
      simp only [ite_mul, zero_mul]
      rw [Finset.sum_ite_eq]
      simp
    rw [Finset.sum_congr rfl fun x _ => hcollapse x, ← Finset.mul_sum, ← mul_assoc,
      hcc, one_mul]
  have hL : ((∑ y : EvalBits m, Complex.normSq (iqftRev m ψ (y, b)) : ℝ) : ℂ) =
      ((∑ x : EvalBits m, Complex.normSq (ψ (x, b)) : ℝ) : ℂ) := by
    push_cast
    calc ∑ y : EvalBits m, (Complex.normSq (iqftRev m ψ (y, b)) : ℂ)
        = ∑ y : EvalBits m,
            iqftRev m ψ (y, b) * (starRingEnd ℂ) (iqftRev m ψ (y, b)) := by
          refine Finset.sum_congr rfl fun y _ => ?_
          rw [Complex.mul_conj]
    _ = ∑ x : EvalBits m, ψ (x, b) * (starRingEnd ℂ) (ψ (x, b)) := key
    _ = ∑ x : EvalBits m, (Complex.normSq (ψ (x, b)) : ℂ) := by
          refine Finset.sum_congr rfl fun x _ => ?_
          rw [Complex.mul_conj]
  exact_mod_cast hL

theorem qae_bernoulli_final (m : ℕ) (a : ℝ) :
    qaeConstructCircuit m (bernoulliA a) (bernoulliGroverOp a) true (initState m) =
      iqftRev m (bernoulliPreState m a) := by
  have h : qaeConstructCircuit m (bernoulliA a) (bernoulliGroverOp a) true (initState m) =
      iqftRev m (((List.ofFn fun j : Fin m =>
        ctrlObj j (opPower (bernoulliGroverOp a) (2 ^ (j : ℕ)) true)).prod)
          (liftObj (bernoulliA a) (hadLayer m (initState m)))) := rfl
  rw [h, bernoulli_preState]

theorem bernoulliPreState_normSum (m : ℕ) (a : ℝ) :
    ∑ x : EvalBits m, ∑ b : Bool, Complex.normSq (bernoulliPreState m a (x, b)) = 1 := by
  have hpt : ∀ x : EvalBits m,
      ∑ b : Bool, Complex.normSq (bernoulliPreState m a (x, b)) = ((1 : ℝ) / 2) ^ m := by
    intro x
    rw [Fintype.sum_bool]
    have hc : Complex.normSq ((Real.sqrt 2 : ℂ)⁻¹ ^ m) = ((1 : ℝ) / 2) ^ m := by
      rw [map_pow, Complex.normSq_inv, Complex.normSq_ofReal,
        Real.mul_self_sqrt (by norm_num)]
      norm_num
    have htrue : Complex.normSq (bernoulliPreState m a (x, true)) =
        ((1 : ℝ) / 2) ^ m * Real.sin ((2 * bitsVal x + 1) * thetaOf a) ^ 2 := by
      rw [bernoulliPreState]
      simp only [if_true]
      rw [Complex.normSq_mul, hc, Complex.normSq_ofReal, ← sq]
    have hfalse : Complex.normSq (bernoulliPreState m a (x, false)) =
        ((1 : ℝ) / 2) ^ m * Real.cos ((2 * bitsVal x + 1) * thetaOf a) ^ 2 := by
      rw [bernoulliPreState]
      simp only [Bool.false_eq_true, if_false]
      rw [Complex.normSq_mul, hc, Complex.normSq_ofReal, ← sq]
    rw [htrue, hfalse, ← mul_add, Real.sin_sq_add_cos_sq, mul_one]
  rw [Finset.sum_congr rfl fun x _ => hpt x, Finset.sum_const, Finset.card_univ]
  rw [Fintype.card_fun]
  simp only [Fintype.card_bool, Fintype.card_fin, nsmul_eq_mul]
  push_cast
  rw [← mul_pow]
  norm_num

theorem natToBits_bijective (m : ℕ) : Function.Bijective (natToBits m) := by
  refine (Fintype.bijective_iff_injective_and_card _).2 ⟨?_, by simp [Fintype.card_fun]⟩
  intro y y' h
  have hbit : ∀ i : ℕ, Nat.testBit y i = Nat.testBit y' i := by
    intro i
    rcases lt_or_le i m with hi | hi
    · exact congrFun h ⟨i, hi⟩
    · have h2 : (2 : ℕ) ^ m ≤ 2 ^ i := Nat.pow_le_pow_right (by norm_num) hi
      rw [Nat.testBit_eq_false_of_lt (lt_of_lt_of_le y.isLt h2),
        Nat.testBit_eq_false_of_lt (lt_of_lt_of_le y'.isLt h2)]
  exact Fin.ext (Nat.eq_of_testBit_eq hbit)

theorem canonMeasureProb_nonneg (m : ℕ) (A : Op1) (Q : AmplificationOperator Op1)
    (y : Fin (2 ^ m)) : 0 ≤ canonMeasureProb m A Q y :=
  Finset.sum_nonneg fun _ _ => Complex.normSq_nonneg _

/-- The exact canonical measurement distribution of the Bernoulli instance
is a probability distribution (for every real parameter). -/
theorem canonMeasureProb_sum (m : ℕ) (a : ℝ) :
    ∑ y : Fin (2 ^ m), canonMeasureProb m (bernoulliA a) (bernoulliGroverOp a) y = 1 := by
  have hsb := Fintype.sum_bijective (natToBits m) (natToBits_bijective m)
    (fun y : Fin (2 ^ m) => canonMeasureProb m (bernoulliA a) (bernoulliGroverOp a) y)
    (fun z : EvalBits m =>
      ∑ b : Bool, Complex.normSq (iqftRev m (bernoulliPreState m a) (z, b)))
    (fun y => by simp only [canonMeasureProb, qae_bernoulli_final])
  rw [hsb, Finset.sum_comm]
  have hpb : ∀ b : Bool,
      ∑ z : EvalBits m, Complex.normSq (iqftRev m (bernoulliPreState m a) (z, b)) =
      ∑ x : EvalBits m, Complex.normSq (bernoulliPreState m a (x, b)) :=
    fun b => iqftRev_parseval (bernoulliPreState m a) b
  rw [Finset.sum_congr rfl fun b _ => hpb b, Finset.sum_comm]
  exact bernoulliPreState_normSum m a

/-- Gibbs inequality in product form: among all sub-probability vectors `q`,
the weighted product `Π q_i^{p_i}` with weights given by a probability
vector `p` is maximised at `q = p`. -/
theorem gibbs_prod_le {ι : Type*} [Fintype ι] [DecidableEq ι] (p q : ι → ℝ)
    (hp : ∀ i, 0 ≤ p i) (hq : ∀ i, 0 ≤ q i) (hp1 : ∑ i, p i = 1)
    (hq1 : ∑ i, q i ≤ 1) : ∏ i, q i ^ p i ≤ ∏ i, p i ^ p i := by
  classical
  set s := Finset.univ.filter fun i => p i ≠ 0 with hs
  have hmem : ∀ i ∈ s, 0 < p i := by
    intro i hi
    have := (Finset.mem_filter.1 hi).2
    exact (hp i).lt_of_ne (Ne.symm this)
  have hrestq : ∏ i, q i ^ p i = ∏ i ∈ s, q i ^ p i := by
    refine (Finset.prod_subset (Finset.filter_subset _ _) fun i _ hi => ?_).symm
    have hpz : p i = 0 := by
      by_contra hne
      exact hi (Finset.mem_filter.2 ⟨Finset.mem_univ i, hne⟩)
    rw [hpz, Real.rpow_zero]
  have hrestp : ∏ i, p i ^ p i = ∏ i ∈ s, p i ^ p i := by
    refine (Finset.prod_subset (Finset.filter_subset _ _) fun i _ hi => ?_).symm
    have hpz : p i = 0 := by
      by_contra hne
      exact hi (Finset.mem_filter.2 ⟨Finset.mem_univ i, hne⟩)
    rw [hpz, Real.rpow_zero]
  have hsum1 : ∑ i ∈ s, p i = 1 := by
    rw [← hp1]
    refine Finset.sum_subset (Finset.filter_subset _ _) fun i _ hi => ?_
    by_contra hne
    exact hi (Finset.mem_filter.2 ⟨Finset.mem_univ i, hne⟩)
  rw [hrestq, hrestp]
  by_cases hzero : ∃ i ∈ s, q i = 0
  · obtain ⟨i, his, hqi⟩ := hzero
    have hLz : ∏ i ∈ s, q i ^ p i = 0 := by
      refine Finset.prod_eq_zero his ?_
      rw [hqi, Real.zero_rpow (ne_of_gt (hmem i his))]
    rw [hLz]
    exact Finset.prod_nonneg fun i _ => Real.rpow_nonneg (hp i) _
  · push_neg at hzero
    have hqpos : ∀ i ∈ s, 0 < q i := fun i hi => (hq i).lt_of_ne (Ne.symm (hzero i hi))
    have hfactor : ∀ i ∈ s, q i ^ p i = (q i / p i) ^ p i * p i ^ p i := by
      intro i hi
      rw [← Real.mul_rpow (div_nonneg (hq i) (hp i)) (hp i),
        div_mul_cancel₀ _ (ne_of_gt (hmem i hi))]
    rw [Finset.prod_congr rfl hfactor, Finset.prod_mul_distrib]
    have hgm : ∏ i ∈ s, (q i / p i) ^ p i ≤ ∑ i ∈ s, p i * (q i / p i) :=
      Real.geom_mean_le_arith_mean_weighted s p (fun i => q i / p i)
        (fun i _ => hp i) hsum1 fun i hi => le_of_lt (div_pos (hqpos i hi) (hmem i hi))
    have hsq : ∑ i ∈ s, p i * (q i / p i) = ∑ i ∈ s, q i := by
      refine Finset.sum_congr rfl fun i hi => ?_
      rw [mul_comm, div_mul_cancel₀ _ (ne_of_gt (hmem i hi))]
    have hqs : ∑ i ∈ s, q i ≤ 1 := by
      refine le_trans ?_ hq1
      exact Finset.sum_le_sum_of_subset_of_nonneg (Finset.filter_subset _ _)
        fun i _ _ => hq i
    have hone : ∏ i ∈ s, (q i / p i) ^ p i ≤ 1 := le_trans hgm (hsq ▸ hqs)
    calc (∏ i ∈ s, (q i / p i) ^ p i) * ∏ i ∈ s, p i ^ p i ≤
        1 * ∏ i ∈ s, p i ^ p i :=
          mul_le_mul_of_nonneg_right hone
            (Finset.prod_nonneg fun i _ => Real.rpow_nonneg (hp i) _)
    _ = ∏ i ∈ s, p i ^ p i := one_mul _

/-- Modelled from the spec: the exact-path likelihood surface of the
canonical estimator — the measurement distribution at candidate amplitude
`c` weighted by the observed (exact) distribution at the true amplitude
`a` — and the refined `mle` as its global maximiser over `[0,1]`. -/
noncomputable def canonExactLikelihood (m : ℕ) (a c : ℝ) : ℝ :=
  ∏ y : Fin (2 ^ m), canonMeasureProb m (bernoulliA c) (bernoulliGroverOp c) y ^
    canonMeasureProb m (bernoulliA a) (bernoulliGroverOp a) y

/-- The `mle` relation for the exact path of the canonical estimator. -/
def IsCanonExactMLE (m : ℕ) (a c : ℝ) : Prop :=
  c ∈ Set.Icc (0 : ℝ) 1 ∧
    ∀ c' ∈ Set.Icc (0 : ℝ) 1, canonExactLikelihood m a c' ≤ canonExactLikelihood m a c

theorem canon_exact_mle (m : ℕ) (a : ℝ) (ha : a ∈ Set.Icc (0 : ℝ) 1) :
    IsCanonExactMLE m a a :=
  ⟨ha, fun c' _ => gibbs_prod_le _ _
    (canonMeasureProb_nonneg m _ _) (canonMeasureProb_nonneg m _ _)
    (canonMeasureProb_sum m a) (le_of_eq (canonMeasureProb_sum m c'))⟩

/-- C1 amended: on the exact (statevector) path, MLAE's estimation — the
unique global likelihood maximiser — equals `a` exactly; IQAE's estimation
equals `a` and its precomputed confidence interval has width 0; the
canonical estimator's refined `mle` likelihood is globally maximised at
`a`; the canonical `estimation` is the phase-grid value `sin²(π·y/2^m)` of
the dominant bin (and therefore need not be within `1e-3` of `a`); and
every confidence-interval query collapses to the zero-width interval at
the point estimate. -/
theorem exact_path_estimates_amended (a : ℝ) (ha : a ∈ Set.Icc (0 : ℝ) 1)
    (powers : List ℕ) (hp : 0 ∈ powers) (m : ℕ)
    (t : StatTables) (r : EstResult) (α : ℝ) (method : CIMethod)
    (hα0 : 0 < α) (hα1 : α < 1) (hex : r.exactPath = true) :
    IsMLAEEstimate (exactRounds powers a) a ∧
      (∀ b, IsMLAEEstimate (exactRounds powers a) b → b = a) ∧
      (iqaeExactRun (bernoulliA a)).estimation = a ∧
      (iqaeExactRun (bernoulliA a)).ciHi - (iqaeExactRun (bernoulliA a)).ciLo = 0 ∧
      IsCanonExactMLE m a a ∧
      (∃ y : Fin (2 ^ m), canonExactEstimation m (bernoulliA a) (bernoulliGroverOp a) =
        gridPoint m y) ∧
      confidenceInterval t r α method = .ok (r.estimate, r.estimate) := by
  refine ⟨⟨ha, fun b _ => mlaeLikelihood_exact_le powers a b⟩, ?_,
    exactGoodProb_bernoulli a ha, sub_self _, canon_exact_mle m a ha,
    canonExactEstimation_mem_grid m _ _,
    confidenceInterval_exact t r α method hα0 hα1 hex⟩
  intro b hb
  by_contra hne
  have hlt := mlaeLikelihood_exact_lt powers hp a b ha hb.1 hne
  have hle := hb.2 a ha
  linarith

/-- Witness for `exact_path_estimates_amended` at `a = 1/2`, the 3-round
power schedule, a 2-qubit evaluation register and a concrete exact-path
result. -/
theorem exact_path_estimates_amended_witness :
    IsMLAEEstimate (exactRounds [0, 1, 2] (1 / 2)) (1 / 2) ∧
      (∀ b, IsMLAEEstimate (exactRounds [0, 1, 2] (1 / 2)) b → b = 1 / 2) ∧
      (iqaeExactRun (bernoulliA (1 / 2))).estimation = 1 / 2 ∧
      (iqaeExactRun (bernoulliA (1 / 2))).ciHi -
        (iqaeExactRun (bernoulliA (1 / 2))).ciLo = 0 ∧
      IsCanonExactMLE 2 (1 / 2) (1 / 2) ∧
      (∃ y : Fin (2 ^ 2), canonExactEstimation 2 (bernoulliA (1 / 2))
        (bernoulliGroverOp (1 / 2)) = gridPoint 2 y) ∧
      confidenceInterval ⟨fun _ => 1, fun _ => 1⟩
        ⟨1 / 2, true, 100, 1, 1, fun _ => 0⟩ (1 / 2) CIMethod.lr =
        .ok (1 / 2, 1 / 2) :=
  exact_path_estimates_amended (1 / 2) (by constructor <;> norm_num) [0, 1, 2]
    (by simp) 2 ⟨fun _ => 1, fun _ => 1⟩ ⟨1 / 2, true, 100, 1, 1, fun _ => 0⟩
    (1 / 2) CIMethod.lr (by norm_num) (by norm_num) rfl

/-! The boundary amplitude `a = 0` on the sampled path. -/

theorem thetaOf_zero : thetaOf 0 = 0 := by
  rw [thetaOf, Real.sqrt_zero, Real.arcsin_zero]

theorem sqrt_two_pow (m : ℕ) : Real.sqrt (2 ^ m) = Real.sqrt 2 ^ m := by
  induction m with
  | zero => simp
  | succ n ih =>
      rw [pow_succ, Real.sqrt_mul (by positivity), ih, pow_succ]

theorem bitsVal_allFalse (m : ℕ) : bitsVal (allFalse m) = 0 := by
  simp [bitsVal, allFalse]

theorem bitRev_allFalse (m : ℕ) : bitRev (allFalse m) = allFalse m := rfl

theorem dftKernel_allFalse {m : ℕ} (x : EvalBits m) : dftKernel m x (allFalse m) = 1 := by
  rw [dftKernel, bitRev_allFalse, bitsVal_allFalse]
  have h : -(2 * Real.pi * ((bitsVal x * 0 : ℕ) : ℝ) / 2 ^ m) = 0 := by
    push_cast
    ring
  rw [h, phase_zero]

theorem inv_sqrt_pow_mul (m : ℕ) :
    (Real.sqrt (2 ^ m) : ℂ)⁻¹ * (Real.sqrt 2 : ℂ)⁻¹ ^ m = ((2 : ℂ) ^ m)⁻¹ := by
  rw [sqrt_two_pow]
  push_cast
  rw [inv_pow, ← mul_inv, ← pow_add]
  congr 1
  have h2 : ((Real.sqrt 2 : ℝ) : ℂ) ^ (m + m) = (((Real.sqrt 2 : ℝ) : ℂ) ^ 2) ^ m := by
    rw [← pow_mul]
    congr 1
    ring
  rw [h2]
  congr 1
  rw [sq, ← Complex.ofReal_mul, Real.mul_self_sqrt (by norm_num)]
  norm_num

/-- With amplitude `0`, the canonical QAE circuit leaves the register in the
basis state `|0…0⟩|0⟩`: the evaluation register reads `0` with certainty and
the objective qubit is never `1`. -/
theorem bernoulli_zero_final (m : ℕ) (y : EvalBits m) (b : Bool) :
    iqftRev m (bernoulliPreState m 0) (y, b) =
      if y = allFalse m ∧ b = false then 1 else 0 := by
  have hpre : ∀ x : EvalBits m, ∀ b' : Bool, bernoulliPreState m 0 (x, b') =
      (Real.sqrt 2 : ℂ)⁻¹ ^ m * (if b' then 0 else 1) := by
    intro x b'
    rw [bernoulliPreState]
    have ht : (2 * (bitsVal x : ℝ) + 1) * thetaOf 0 = 0 := by
      rw [thetaOf_zero, mul_zero]
    cases b' <;> simp [ht]
  rw [iqftRev_apply]
  cases b with
  | true =>
      have hz : ∀ x : EvalBits m, dftKernel m x y * bernoulliPreState m 0 (x, true) = 0 := by
        intro x
        rw [hpre x true]
        simp
      rw [Finset.sum_congr rfl fun x _ => hz x]
      simp
  | false =>
      have hterm : ∀ x : EvalBits m, dftKernel m x y * bernoulliPreState m 0 (x, false) =
          (Real.sqrt 2 : ℂ)⁻¹ ^ m * dftKernel m x y := by
        intro x
        rw [hpre x false]
        simp [mul_comm]
      rw [Finset.sum_congr rfl fun x _ => hterm x, ← Finset.mul_sum]
      by_cases hy : y = allFalse m
      · subst hy
        rw [Finset.sum_congr rfl fun x _ => dftKernel_allFalse x, Finset.sum_const,
          Finset.card_univ, Fintype.card_fun]
        simp only [Fintype.card_bool, Fintype.card_fin, nsmul_eq_mul, mul_one]
        simp only [and_self, if_true]
        rw [← mul_assoc, inv_sqrt_pow_mul]
        push_cast
        rw [inv_mul_cancel₀ (pow_ne_zero m two_ne_zero)]
      · rw [if_neg fun h => hy h.1]
        have hk0 : bitsVal (bitRev y) ≠ 0 := by
          intro h
          apply hy
          have h1 : bitsVal (bitRev y) = bitsVal (allFalse m) := by
            rw [h, bitsVal_allFalse]
          have h2 := bitsVal_injective h1
          have h3 := congrArg bitRev h2
          rwa [bitRev_involutive y, bitRev_allFalse] at h3
        have hsum0 : ∑ x : EvalBits m, dftKernel m x y = 0 := by
          have hd : ¬(2 : ℤ) ^ m ∣ (-(bitsVal (bitRev y) : ℤ)) := by
            rw [Int.dvd_neg]
            intro hdvd
            have hlt := bitsVal_lt (bitRev y)
            have hle : (2 : ℤ) ^ m ≤ (bitsVal (bitRev y) : ℤ) :=
              Int.le_of_dvd (by exact_mod_cast Nat.pos_of_ne_zero hk0) hdvd
            have h2 : ((2 ^ m : ℕ) : ℤ) = (2 : ℤ) ^ m := by push_cast; rfl
            omega
          have h := phaseSum_int (m := m) (-(bitsVal (bitRev y) : ℤ)) hd
          rw [← h]
          refine Finset.sum_congr rfl fun x _ => ?_
          rw [dftKernel]
          congr 1
          push_cast
          ring
        rw [hsum0, mul_zero, mul_zero]

/-- The canonical measurement distribution at amplitude `0` is concentrated
on the bin `y = 0`. -/
theorem canonMeasureProb_amp_zero (m : ℕ) (y : Fin (2 ^ m)) :
    canonMeasureProb m (bernoulliA 0) (bernoulliGroverOp 0) y =
      if y = 0 then 1 else 0 := by
  have hnat0 : natToBits m 0 = allFalse m := by
    funext j
    simp [natToBits, allFalse, Nat.zero_testBit]
  rw [canonMeasureProb]
  simp only [qae_bernoulli_final]
  rcases eq_or_ne y 0 with rfl | hy
  · rw [if_pos rfl, Fintype.sum_bool]
    rw [bernoulli_zero_final m _ true, bernoulli_zero_final m _ false, hnat0]
    simp
  · rw [if_neg hy]
    have hne : natToBits m y ≠ allFalse m := by
      intro h
      apply hy
      exact (natToBits_bijective m).1 (h.trans hnat0.symm)
    rw [Fintype.sum_bool, bernoulli_zero_final m _ true, bernoulli_zero_final m _ false]
    simp [hne]

theorem argmaxFin_of_strict {n : ℕ} (hn : 0 < n) (f : Fin n → ℝ) (i0 : Fin n)
    (hstrict : ∀ j, j ≠ i0 → f j < f i0) : argmaxFin hn f = i0 := by
  have hfilter : (Finset.univ.filter fun i => ∀ j, f j ≤ f i) = {i0} := by
    ext i
    simp only [Finset.mem_filter, Finset.mem_univ, true_and, Finset.mem_singleton]
    constructor
    · intro hi
      by_contra hne
      exact absurd (hi i0) (not_le.2 (hstrict i hne))
    · rintro rfl
      intro j
      rcases eq_or_ne j i with rfl | hj
      · exact le_refl _
      · exact (hstrict j hj).le
  have hmem : argmaxFin hn f ∈ (Finset.univ.filter fun i => ∀ j, f j ≤ f i) :=
    Finset.min'_mem _ _
  rw [hfilter] at hmem
  exact Finset.mem_singleton.1 hmem

/-- Closed form of the probability of the all-zero measurement bin for the
Bernoulli instance at an arbitrary amplitude parameter. -/
theorem canonMeasureProb_at_zero (m : ℕ) (c : ℝ) :
    canonMeasureProb m (bernoulliA c) (bernoulliGroverOp c) 0 =
      ((∑ x : EvalBits m, Real.cos ((2 * bitsVal x + 1) * thetaOf c)) ^ 2 +
        (∑ x : EvalBits m, Real.sin ((2 * bitsVal x + 1) * thetaOf c)) ^ 2) / 4 ^ m := by
  have hnat0 : natToBits m 0 = allFalse m := by
    funext j
    simp [natToBits, allFalse, Nat.zero_testBit]
  rw [canonMeasureProb]
  simp only [qae_bernoulli_final, hnat0]
  have hamp : ∀ b : Bool, iqftRev m (bernoulliPreState m c) (allFalse m, b) =
      ((2 : ℂ) ^ m)⁻¹ *
        (((if b then ∑ x : EvalBits m, Real.sin ((2 * bitsVal x + 1) * thetaOf c)
          else ∑ x : EvalBits m, Real.cos ((2 * bitsVal x + 1) * thetaOf c) : ℝ)) : ℂ) := by
    intro b
    rw [iqftRev_apply]
    have hterm : ∀ x : EvalBits m,
        dftKernel m x (allFalse m) * bernoulliPreState m c (x, b) =
        (Real.sqrt 2 : ℂ)⁻¹ ^ m *
          (if b then (Real.sin ((2 * bitsVal x + 1) * thetaOf c) : ℂ)
            else (Real.cos ((2 * bitsVal x + 1) * thetaOf c) : ℂ)) := by
      intro x
      rw [dftKernel_allFalse, one_mul, bernoulliPreState]
    rw [Finset.sum_congr rfl fun x _ => hterm x, ← Finset.mul_sum, ← mul_assoc,
      inv_sqrt_pow_mul]
    congr 1
    cases b
    · simp only [Bool.false_eq_true, if_false]
      push_cast
      rfl
    · simp only [if_true]
      push_cast
      rfl
  rw [Fintype.sum_bool, hamp true, hamp false]
  simp only [if_true, Bool.false_eq_true, if_false]
  rw [Complex.normSq_mul, Complex.normSq_mul, Complex.normSq_ofReal,
    Complex.normSq_ofReal]
  have hinv : Complex.normSq ((2 : ℂ) ^ m)⁻¹ = ((4 : ℝ) ^ m)⁻¹ := by
    have h2 : ((2 : ℂ)) ^ m = (((2 : ℝ) ^ m : ℝ) : ℂ) := by push_cast; rfl
    rw [Complex.normSq_inv, h2, Complex.normSq_ofReal, ← mul_pow]
    norm_num
  rw [hinv]
  rw [div_eq_mul_inv]
  ring

theorem canonMeasureProb_at_zero_le_one (m : ℕ) (c : ℝ) :
    canonMeasureProb m (bernoulliA c) (bernoulliGroverOp c) 0 ≤ 1 := by
  rw [canonMeasureProb_at_zero, div_le_one (by positivity)]
  set z : ℂ := ∑ x : EvalBits m,
    Complex.exp (((2 * bitsVal x + 1) * thetaOf c : ℝ) * Complex.I) with hz
  have hre : z.re = ∑ x : EvalBits m, Real.cos ((2 * bitsVal x + 1) * thetaOf c) := by
    rw [hz, Complex.re_sum]
    exact Finset.sum_congr rfl fun x _ => Complex.exp_ofReal_mul_I_re _
  have him : z.im = ∑ x : EvalBits m, Real.sin ((2 * bitsVal x + 1) * thetaOf c) := by
    rw [hz, Complex.im_sum]
    exact Finset.sum_congr rfl fun x _ => Complex.exp_ofReal_mul_I_im _
  have habs : Complex.abs z ≤ 2 ^ m := by
    calc Complex.abs z = ‖z‖ := (Complex.norm_eq_abs z).symm
    _ ≤ ∑ x : EvalBits m,
        ‖Complex.exp (((2 * bitsVal x + 1) * thetaOf c : ℝ) * Complex.I)‖ :=
      norm_sum_le _ _
    _ = ∑ _x : EvalBits m, (1 : ℝ) := by
      refine Finset.sum_congr rfl fun x _ => ?_
      rw [Complex.norm_eq_abs, Complex.abs_exp_ofReal_mul_I]
    _ = 2 ^ m := by
      rw [Finset.sum_const, Finset.card_univ, Fintype.card_fun]
      simp
  have hsq : (∑ x : EvalBits m, Real.cos ((2 * bitsVal x + 1) * thetaOf c)) ^ 2 +
      (∑ x : EvalBits m, Real.sin ((2 * bitsVal x + 1) * thetaOf c)) ^ 2 =
      Complex.normSq z := by
    rw [Complex.normSq_apply, ← hre, ← him]
    ring
  rw [hsq, ← Complex.sq_abs]
  calc Complex.abs z ^ 2 ≤ ((2 : ℝ) ^ m) ^ 2 :=
    pow_le_pow_left₀ (AbsoluteValue.nonneg _ _) habs 2
  _ = 4 ^ m := by
    rw [← pow_mul, mul_comm, pow_mul]
    norm_num

theorem canonMeasureProb_at_zero_lt_one (m : ℕ) (hm : 0 < m) (c : ℝ)
    (hc : c ∈ Set.Ioc (0 : ℝ) 1) :
    canonMeasureProb m (bernoulliA c) (bernoulliGroverOp c) 0 < 1 := by
  rw [canonMeasureProb_at_zero, div_lt_one (by positivity)]
  have hθpos : 0 < thetaOf c := by
    rw [thetaOf]
    exact Real.arcsin_pos.2 (Real.sqrt_pos.2 hc.1)
  have hθle : thetaOf c ≤ Real.pi / 2 := Real.arcsin_le_pi_div_two _
  have hexpand : (∑ x : EvalBits m, Real.cos ((2 * bitsVal x + 1) * thetaOf c)) ^ 2 +
      (∑ x : EvalBits m, Real.sin ((2 * bitsVal x + 1) * thetaOf c)) ^ 2 =
      ∑ x : EvalBits m, ∑ x' : EvalBits m,
        Real.cos ((2 * bitsVal x + 1) * thetaOf c - (2 * bitsVal x' + 1) * thetaOf c) := by
    rw [sq, sq, Finset.sum_mul_sum, Finset.sum_mul_sum, ← Finset.sum_add_distrib]
    refine Finset.sum_congr rfl fun x _ => ?_
    rw [← Finset.sum_add_distrib]
    refine Finset.sum_congr rfl fun x' _ => ?_
    rw [Real.cos_sub]
  rw [hexpand]
  set x1 : EvalBits m := Function.update (allFalse m) ⟨0, hm⟩ true with hx1
  have hvx1 : bitsVal x1 = 1 := by
    rw [bitsVal]
    have hfun : (fun j : Fin m => if x1 j then 2 ^ (j : ℕ) else 0) =
        Function.update (fun j : Fin m => if allFalse m j then 2 ^ (j : ℕ) else 0)
          ⟨0, hm⟩ 1 := by
      funext j
      rcases eq_or_ne j ⟨0, hm⟩ with rfl | hj
      · simp [hx1, Function.update_same]
      · simp [hx1, Function.update_noteq hj, allFalse]
    rw [hfun, Finset.sum_update_of_mem (Finset.mem_univ _)]
    simp [allFalse]
  have hcoslt : Real.cos ((2 * bitsVal (allFalse m) + 1) * thetaOf c -
      (2 * bitsVal x1 + 1) * thetaOf c) < 1 := by
    have harg : (2 * (bitsVal (allFalse m) : ℝ) + 1) * thetaOf c -
        (2 * (bitsVal x1 : ℝ) + 1) * thetaOf c = -(2 * thetaOf c) := by
      rw [bitsVal_allFalse, hvx1]
      push_cast
      ring
    rw [harg, Real.cos_neg]
    rcases lt_or_eq_of_le (Real.cos_le_one (2 * thetaOf c)) with h | h
    · exact h
    · exfalso
      obtain ⟨n, hn⟩ := (Real.cos_eq_one_iff _).1 h
      have hpi := Real.pi_pos
      have hcases : (1 : ℝ) ≤ (n : ℝ) ∨ (n : ℝ) ≤ 0 := by
        rcases le_or_lt 1 n with h1 | h1
        · exact Or.inl (by exact_mod_cast h1)
        · exact Or.inr (by exact_mod_cast (by omega : n ≤ 0))
      rcases hcases with h1 | h1
      · nlinarith
      · nlinarith
  have hinner_le : ∀ x : EvalBits m, ∑ x' : EvalBits m,
      Real.cos ((2 * bitsVal x + 1) * thetaOf c - (2 * bitsVal x' + 1) * thetaOf c) ≤
      2 ^ m := by
    intro x
    calc ∑ x' : EvalBits m,
        Real.cos ((2 * bitsVal x + 1) * thetaOf c - (2 * bitsVal x' + 1) * thetaOf c) ≤
        ∑ _x' : EvalBits m, (1 : ℝ) :=
      Finset.sum_le_sum fun x' _ => Real.cos_le_one _
    _ = 2 ^ m := by
      rw [Finset.sum_const, Finset.card_univ, Fintype.card_fun]
      simp
  have hinner_strict : ∑ x' : EvalBits m,
      Real.cos ((2 * bitsVal (allFalse m) + 1) * thetaOf c -
        (2 * bitsVal x' + 1) * thetaOf c) < 2 ^ m := by
    have hlt := Finset.sum_lt_sum (s := Finset.univ)
      (f := fun x' : EvalBits m =>
        Real.cos ((2 * bitsVal (allFalse m) + 1) * thetaOf c -
          (2 * bitsVal x' + 1) * thetaOf c))
      (g := fun _ => (1 : ℝ))
      (fun x' _ => Real.cos_le_one _) ⟨x1, Finset.mem_univ x1, hcoslt⟩
    have hconst : ∑ _x' : EvalBits m, (1 : ℝ) = 2 ^ m := by
      rw [Finset.sum_const, Finset.card_univ, Fintype.card_fun]
      simp
    rw [hconst] at hlt
    exact hlt
  have houter := Finset.sum_lt_sum (s := Finset.univ)
    (f := fun x : EvalBits m => ∑ x' : EvalBits m,
      Real.cos ((2 * bitsVal x + 1) * thetaOf c - (2 * bitsVal x' + 1) * thetaOf c))
    (g := fun _ => (2 : ℝ) ^ m)
    (fun x _ => hinner_le x) ⟨allFalse m, Finset.mem_univ _, hinner_strict⟩
  have hconst2 : ∑ _x : EvalBits m, (2 : ℝ) ^ m = 4 ^ m := by
    rw [Finset.sum_const, Finset.card_univ, Fintype.card_fun]
    simp only [Fintype.card_bool, Fintype.card_fin, nsmul_eq_mul]
    push_cast
    rw [← mul_pow]
    norm_num
  rw [hconst2] at houter
  exact houter

/-- Modelled from the spec: the likelihood of the measured evaluation-bin
counts under the canonical QAE measurement distribution at amplitude `c`,
and the `mle` as its global maximiser over `[0,1]`. -/
noncomputable def canonCountsLikelihood (m : ℕ) (counts : Fin (2 ^ m) → ℕ) (c : ℝ) : ℝ :=
  ∏ y : Fin (2 ^ m),
    canonMeasureProb m (bernoulliA c) (bernoulliGroverOp c) y ^ counts y

/-- The `mle` relation for the sampled path of the canonical estimator. -/
def IsCanonCountsMLE (m : ℕ) (counts : Fin (2 ^ m) → ℕ) (c : ℝ) : Prop :=
  c ∈ Set.Icc (0 : ℝ) 1 ∧ ∀ c' ∈ Set.Icc (0 : ℝ) 1,
    canonCountsLikelihood m counts c' ≤ canonCountsLikelihood m counts c

/-- C10: a sampled-path canonical QAE run with amplitude `a = 0` (2
evaluation qubits, 1000 shots) succeeds and returns `estimation = 0` and
`mle = 0` exactly: the measurement distribution is concentrated on the
all-zero bin, so any faithful sample has all-zero success counts, the
dominant-bin decoding yields the boundary value `0`, and `0` is the unique
global maximiser of the count likelihood — no estimation-failure error. -/
theorem zero_amplitude_sampled_run (counts : Fin (2 ^ 2) → ℕ)
    (hsupp : ∀ y, counts y ≠ 0 →
      canonMeasureProb 2 (bernoulliA 0) (bernoulliGroverOp 0) y ≠ 0)
    (htotal : ∑ y, counts y = 1000) :
    canonCountsEstimation 2 counts = 0 ∧
      IsCanonCountsMLE 2 counts 0 ∧
      ∀ c ∈ Set.Icc (0 : ℝ) 1, IsCanonCountsMLE 2 counts c → c = 0 := by
  have hzero : ∀ y : Fin (2 ^ 2), y ≠ 0 → counts y = 0 := by
    intro y hy
    by_contra hne
    exact hsupp y hne (by rw [canonMeasureProb_amp_zero, if_neg hy])
  have hc0 : counts 0 = 1000 := by
    rw [← htotal]
    exact (Finset.sum_eq_single 0 (fun y _ hy => hzero y hy)
      (fun h => absurd (Finset.mem_univ _) h)).symm
  have hlik : ∀ c : ℝ, canonCountsLikelihood 2 counts c =
      canonMeasureProb 2 (bernoulliA c) (bernoulliGroverOp c) 0 ^ 1000 := by
    intro c
    rw [canonCountsLikelihood]
    rw [Finset.prod_eq_single 0 (fun y _ hy => by rw [hzero y hy, pow_zero])
      (fun h => absurd (Finset.mem_univ _) h), hc0]
  have hL0 : canonCountsLikelihood 2 counts 0 = 1 := by
    rw [hlik, canonMeasureProb_amp_zero, if_pos rfl, one_pow]
  refine ⟨?_, ?_, ?_⟩
  · rw [canonCountsEstimation]
    have harg : argmaxFin (Nat.two_pow_pos 2) (fun y => ((counts y : ℝ))) = 0 := by
      refine argmaxFin_of_strict _ _ 0 fun j hj => ?_
      rw [hzero j hj, hc0]
      norm_num
    rw [harg]
    simp [gridPoint]
  · refine ⟨by constructor <;> norm_num, fun c' _ => ?_⟩
    rw [hL0, hlik]
    exact pow_le_one₀ (canonMeasureProb_nonneg 2 _ _ 0)
      (canonMeasureProb_at_zero_le_one 2 c')
  · intro c hcmem hmle
    by_contra hne
    have hcIoc : c ∈ Set.Ioc (0 : ℝ) 1 := ⟨(hcmem.1).lt_of_ne (Ne.symm hne), hcmem.2⟩
    have hlt : canonCountsLikelihood 2 counts c < 1 := by
      rw [hlik]
      exact pow_lt_one₀ (canonMeasureProb_nonneg 2 _ _ 0)
        (canonMeasureProb_at_zero_lt_one 2 (by norm_num) c hcIoc) (by norm_num)
    have hge := hmle.2 0 (by constructor <;> norm_num)
    rw [hL0] at hge
    linarith

/-- Witness for `zero_amplitude_sampled_run`: the sample that places all
1000 shots on the all-zero bin (the only bin with nonzero probability). -/
theorem zero_amplitude_sampled_run_witness :
    canonCountsEstimation 2 (fun y => if y = 0 then 1000 else 0) = 0 ∧
      IsCanonCountsMLE 2 (fun y => if y = 0 then 1000 else 0) 0 ∧
      ∀ c ∈ Set.Icc (0 : ℝ) 1,
        IsCanonCountsMLE 2 (fun y => if y = 0 then 1000 else 0) c → c = 0 :=
  zero_amplitude_sampled_run (fun y => if y = 0 then 1000 else 0)
    (by
      intro y hy
      rcases eq_or_ne y 0 with rfl | h
      · rw [canonMeasureProb_amp_zero, if_pos rfl]
        norm_num
      · simp [h] at hy)
    (by simp)

end AmpEst
